import Mathlib

/-!
# Verification of `certbot_nginx/nginxparser.py`

A shallow embedding of the nginx configuration parser, dumper and the
dual-view `UnspacedList` from `src/certbot-nginx/certbot_nginx/nginxparser.py`,
together with proofs and refutations of the specification's claims.

Strings are modelled as `List Char`.  The pyparsing grammar of
`RawNginxParser` is embedded as recursive-descent functions whose semantics
follow the pyparsing combinators used by the source (`White`, `Word`,
`Regex`, `CharsNotIn`, `Literal`, `Optional`, `And`, `Or` = longest match,
`MatchFirst` = first match, `Group`, suppression, and the implicit
whitespace skipping that a bare `Literal` performs before matching).
The scope of the model is inputs made of ASCII characters without the
form-feed character: on such inputs the implicit whitespace skipping that
can consume characters is the pre-parse the script-level `And` performs
at the start of the document and the one performed by the suppressed
`Literal("{")` (`left_bracket`); the parser model accounts for both
explicitly.
-/

namespace Nginx

/-- The four whitespace characters matched by pyparsing's `White()` and
skipped by default before tokens (`ParserElement.DEFAULT_WHITE_CHARS =
" \n\t\r"`): space (32), tab (9), carriage return (13), newline (10). -/
def isWs (c : Char) : Bool :=
  c.toNat = 32 || c.toNat = 9 || c.toNat = 13 || c.toNat = 10

/-- Python `str.isspace` on scoped inputs: the six ASCII whitespace
characters (space, tab, newline, carriage return, vertical tab 11,
form feed 12). -/
def isPySpace (c : Char) : Bool :=
  isWs c || c.toNat = 11 || c.toNat = 12

/-- Characters allowed in `key = Word(alphanums + "_/+-.")`:
ASCII letters, digits, and `_` (95), `/` (47), `+` (43), `-` (45), `.` (46). -/
def isKeyChar (c : Char) : Bool :=
  (65 ≤ c.toNat && c.toNat ≤ 90) || (97 ≤ c.toNat && c.toNat ≤ 122) ||
    (48 ≤ c.toNat && c.toNat ≤ 57) ||
    c.toNat = 95 || c.toNat = 47 || c.toNat = 43 || c.toNat = 45 || c.toNat = 46

/-- The four characters excluded by the character class `[^\{\};,]`
of the `value` regex. -/
def isValStop (c : Char) : Bool :=
  c = '{' || c = '}' || c = ';' || c = ','

/-- Characters excluded by `location = CharsNotIn("{};," + string.whitespace)`. -/
def isLocStop (c : Char) : Bool :=
  isValStop c || isPySpace c

/-- The character scope of the model: printable ASCII plus tab, newline
and carriage return.  This excludes the characters on which the Python
implementation behaves in ways outside this embedding: characters skipped
by `White`'s preparse (form feed and non-ASCII unicode spaces) and the
remaining characters on which Python's `str.isspace` disagrees with the
six-character ASCII set (`\x1c`-`\x1f`, `\x85`, unicode spaces). -/
def okChar (c : Char) : Bool :=
  c.toNat = 9 || c.toNat = 10 || c.toNat = 13 || (32 ≤ c.toNat && c.toNat ≤ 126)

/-- `space = Optional(White())`: split off the maximal (possibly empty)
leading run of whitespace. -/
def white (s : List Char) : List Char × List Char :=
  (s.takeWhile isWs, s.dropWhile isWs)

theorem white_append (s : List Char) : (white s).1 ++ (white s).2 = s := by
  simp [white]

theorem white_all (s : List Char) : (white s).1.all isWs := by
  induction s with
  | nil => rfl
  | cons c t ih =>
    by_cases h : isWs c <;> simp_all [white, List.takeWhile_cons]

theorem white_rest_head (s : List Char) :
    (white s).2 = [] ∨ ∃ c t, (white s).2 = c :: t ∧ isWs c = false := by
  induction s with
  | nil => left; rfl
  | cons c t ih =>
    by_cases h : isWs c
    · simpa [white, List.dropWhile_cons, h] using ih
    · right; exact ⟨c, t, by simp [white, List.dropWhile_cons, h], by simpa using h⟩

/-- `white` on a string whose head is not whitespace consumes nothing. -/
theorem white_of_head_not_ws {s : List Char} (h : s = [] ∨ ∃ c t, s = c :: t ∧ isWs c = false) :
    white s = ([], s) := by
  rcases h with h | ⟨c, t, rfl, hc⟩
  · simp [h, white]
  · simp [white, List.takeWhile_cons, List.dropWhile_cons, hc]

/-- `Word(alphanums + "_/+-.")`: maximal nonempty run of key characters. -/
def keyTok (s : List Char) : Option (List Char × List Char) :=
  match s.takeWhile isKeyChar, s.dropWhile isKeyChar with
  | [], _ => none
  | k, r => some (k, r)

/-- `CharsNotIn("{};," + string.whitespace)`: maximal nonempty run. -/
def locTok (s : List Char) : Option (List Char × List Char) :=
  match s.takeWhile (fun c => !isLocStop c), s.dropWhile (fun c => !isLocStop c) with
  | [], _ => none
  | k, r => some (k, r)

/-- `modifier = Literal("=") | Literal("~*") | Literal("~") | Literal("^~")`:
a `MatchFirst`, so `"~*"` is tried before `"~"`. -/
def modTok (s : List Char) : Option (List Char × List Char) :=
  match s with
  | '=' :: r => some (['='], r)
  | '~' :: '*' :: r => some (['~', '*'], r)
  | '~' :: r => some (['~'], r)
  | '^' :: '~' :: r => some (['^', '~'], r)
  | _ => none

/-- `restOfLine = Regex(".*").leaveWhitespace()`: everything up to (not
including) the next newline. -/
def restOfLine (s : List Char) : List Char × List Char :=
  (s.takeWhile (· ≠ '\n'), s.dropWhile (· ≠ '\n'))

theorem restOfLine_append (s : List Char) :
    (restOfLine s).1 ++ (restOfLine s).2 = s := by
  simp [restOfLine]

/-- One quoted-span step of the `value` regex: the group `(\".*\")?`
(respectively `(\'.*\')?`).  Python's greedy `.*` does not cross a newline
and runs to the *last* closing quote on the line.  Returns the number of
characters consumed (`0` when the group matches the empty string). -/
def qlen (q : Char) (s : List Char) : Nat :=
  match s with
  | c :: rest =>
      if c = q then
        let line := rest.takeWhile (· ≠ '\n')
        match (line.enum.filter (fun p => p.2 = q)).getLast? with
        | some (k, _) => k + 2
        | none => 0
      else 0
  | [] => 0

/-- The single-character step `[^\{\};,]?` of the `value` regex. -/
def clen (s : List Char) : Nat :=
  match s with
  | c :: _ => if isValStop c then 0 else 1
  | [] => 0

/-- Length consumed by one iteration of the outer `(...)+` of the `value`
regex: double-quote group, then single-quote group, then the optional
single character. -/
def stepLen (s : List Char) : Nat :=
  qlen '"' s + qlen '\'' (s.drop (qlen '"' s)) +
    clen (s.drop (qlen '"' s + qlen '\'' (s.drop (qlen '"' s))))

theorem clen_nil : clen [] = 0 := rfl

theorem stepLen_nil : stepLen [] = 0 := rfl

theorem stepLen_pos_of_ne_nil {s : List Char} (h : stepLen s ≠ 0) : s ≠ [] := by
  intro hs; exact h (hs ▸ stepLen_nil)

/-- Fuelled iteration of the `value`-regex step; each iteration consumes at
least one character, so fuel `s.length + 1` never runs out. -/
def valueTokF : Nat → List Char → List Char × List Char
  | 0, s => ([], s)
  | fuel + 1, s =>
      let n := stepLen s
      if n = 0 then ([], s)
      else
        match valueTokF fuel (s.drop n) with
        | (v, r) => (s.take n ++ v, r)

/-- `value = Regex(r"((\".*\")?(\'.*\')?[^\{\};,]?)+")`: iterate the step
until it makes no progress (a zero-width iteration ends the match, so the
regex also matches the empty string). -/
def valueTok (s : List Char) : List Char × List Char :=
  valueTokF (s.length + 1) s

theorem valueTokF_append (fuel : Nat) (s : List Char) :
    (valueTokF fuel s).1 ++ (valueTokF fuel s).2 = s := by
  induction fuel generalizing s with
  | zero => simp [valueTokF]
  | succ f ih =>
    rw [valueTokF]
    split
    · simp
    · next h =>
      cases hv : valueTokF f (s.drop (stepLen s)) with
      | mk v r =>
        have := ih (s.drop (stepLen s))
        rw [hv] at this
        simp only [] at this ⊢
        rw [List.append_assoc, this]
        exact List.take_append_drop _ s

theorem valueTok_append (s : List Char) : (valueTok s).1 ++ (valueTok s).2 = s :=
  valueTokF_append _ s

theorem valueTokF_rest (fuel : Nat) (s : List Char) (hf : s.length < fuel) :
    (valueTokF fuel s).2 = [] ∨
      ∃ c t, (valueTokF fuel s).2 = c :: t ∧ isValStop c = true := by
  induction fuel generalizing s with
  | zero => omega
  | succ f ih =>
    rw [valueTokF]
    split
    · next h =>
      simp only []
      unfold stepLen at h
      cases s with
      | nil => left; rfl
      | cons c t =>
        right
        have ha : qlen '"' (c :: t) = 0 := by omega
        have hb : qlen '\'' ((c :: t).drop (qlen '"' (c :: t))) = 0 := by omega
        have hc : clen ((c :: t).drop
            (qlen '"' (c :: t) + qlen '\'' ((c :: t).drop (qlen '"' (c :: t))))) = 0 := by
          omega
        rw [ha] at hb hc
        simp only [List.drop_zero, Nat.zero_add] at hb hc
        rw [hb] at hc
        simp only [List.drop_zero] at hc
        refine ⟨c, t, rfl, ?_⟩
        by_contra hstop
        simp only [clen] at hc
        rw [if_neg hstop] at hc
        exact one_ne_zero hc
    · next h =>
      have hs : s ≠ [] := stepLen_pos_of_ne_nil h
      have hlt : (s.drop (stepLen s)).length < f := by
        have hn : 0 < stepLen s := Nat.pos_of_ne_zero h
        have hl : 0 < s.length := List.length_pos.mpr hs
        simp only [List.length_drop]
        omega
      have := ih (s.drop (stepLen s)) hlt
      cases hv : valueTokF f (s.drop (stepLen s)) with
      | mk v r =>
        rw [hv] at this
        simpa using this

/-- Where `valueTok` stops: at the end of the input or before one of the
four excluded characters `{`, `}`, `;`, `,`. -/
theorem valueTok_rest (s : List Char) :
    (valueTok s).2 = [] ∨
      ∃ c t, (valueTok s).2 = c :: t ∧ isValStop c = true :=
  valueTokF_rest _ s (by omega)

/-! ## The raw value tree

`SV` models the Python values stored in the parse tree and in the `spaced`
(formatted) view: strings, (nested) lists, and — for the error-handling
claims — an opaque non-string non-list object (`SV.obj`), standing for any
Python value that is neither a `str` nor a `list`. -/

inductive SV where
  | str : List Char → SV
  | lst : List SV → SV
  | obj : Int → SV

/-- `spacey = lambda x: (isinstance(x, str) and x.isspace()) or x == ''`.
For a string this is equivalent to all of its characters being Python
whitespace (the empty string included); for any non-string value the
test is false. -/
def spaceySV : SV → Bool
  | .str s => s.all isPySpace
  | _ => false

/-- Python `str.strip()` (ASCII whitespace). -/
def pyStrip (s : List Char) : List Char :=
  ((s.dropWhile isPySpace).reverse.dropWhile isPySpace).reverse

/-- `"".join(key)`: fails (TypeError) unless every element is a string. -/
def joinStrs : List SV → Option (List Char)
  | [] => some []
  | .str s :: rest => do pure (s ++ (← joinStrs rest))
  | _ => none

/-! ### The dumper (`RawNginxDumper.__iter__`)

The generator is modelled as a function returning `Option (List Char)`:
`none` stands for a raised exception (IndexError from popping an empty
list, TypeError from concatenating a string with a non-string or from
iterating a non-iterable value).  Iterating a *string* in the block branch
(`for parameter in values`) iterates its characters, each of which is
yielded unchanged, so the net output is the string itself. -/

mutual

/-- Dump one element of a block list: a raw string is yielded unchanged,
a list goes through the indentation/key/values logic of `__iter__`. -/
def dumpOne : SV → Option (List Char)
  | .str s => some s
  | .obj _ => none
  | .lst b => dumpList b

/-- The body of `__iter__` for one non-string node `b`. -/
def dumpList : List SV → Option (List Char)
  | [] => none
  | b0 :: rest =>
      if spaceySV b0 then
        match b0 with
        | .str ind =>
            match rest with
            | [] => some ind
            | key :: rest₂ => dumpCore ind key rest₂
        | _ => none
      else dumpCore [] b0 rest

/-- The key/values part of `__iter__`, after the optional indentation has
been popped: `indentation` is the popped leading whitespace. -/
def dumpCore (ind : List Char) (key : SV) (b : List SV) : Option (List Char) :=
  match b with
  | [] => none
  | values :: b₂ =>
      match key with
      | .lst ks => do
          let kstr ← joinStrs ks
          let body ← dumpValues values
          pure (ind ++ kstr ++ ['{'] ++ body ++ ['}'])
      | .str k =>
          if pyStrip k = ['#'] then
            match values with
            | .str vs => some (ind ++ k ++ vs)
            | _ => none
          else
            match values with
            | .str v =>
                if v ≠ [] && spaceySV (.str v) then
                  match b₂ with
                  | [] => none
                  | v₂ :: _ =>
                      match v₂ with
                      | .str vv => some (ind ++ k ++ v ++ vv ++ [';'])
                      | _ => none
                else some (ind ++ k ++ v ++ [';'])
            | _ => none
      | .obj _ => none

/-- Iterate the body of a block (`for parameter in values`): a list is
dumped element by element; a string yields its characters, i.e. itself. -/
def dumpValues : SV → Option (List Char)
  | .lst xs => dumpItems xs
  | .str s => some s
  | .obj _ => none

/-- Dump a list of top-level or body elements, concatenating the yields. -/
def dumpItems : List SV → Option (List Char)
  | [] => some []
  | x :: xs => do pure ((← dumpOne x) ++ (← dumpItems xs))

end

/-! ## The parser (`RawNginxParser`)

Each production returns its group's token list (an `SV.lst`) and the
remaining input.  `Optional(White())` tokens are recorded only when
nonempty, matching pyparsing (an `Optional` around a failing `White`
contributes no token).  Alternations built with `|` (`MatchFirst`) try the
alternatives in order and keep the first match; alternations built with
`^` (`Or`) keep the longest match, first-listed on ties.

Implicit whitespace skipping: with the grammar's explicit greedy `space`
elements, the only bare tokens whose default whitespace-skip can consume
characters are the suppressed `Literal("{")`, `Literal(";")` and
`Literal("}")`, and the script-level `And` itself, whose pre-parse runs
once at position 0 of the document (`parseScript` counts it); the parser
models these skips explicitly and reports the total number of characters
they discarded (the `Nat` component).  The skips before `;` and `}` are
provably always empty (`valueTok` stops only at `{};,`; the block body
ends with a greedy `space`); the skip before `{` is reachable (a generic
header whose `Optional(space + location + space)` backtracks after a
modifier leaves whitespace unconsumed), as is the document-leading one
(any input starting with whitespace). -/

/-- A whitespace token is recorded only when nonempty. -/
def optTok (w : List Char) : List SV := if w = [] then [] else [.str w]

/-- `comment = space + Literal('#') + restOfLine()`. -/
def parseComment (s : List Char) : Option (SV × List Char) :=
  let (w, s₁) := white s
  match s₁ with
  | '#' :: s₂ =>
      let (r, s₃) := restOfLine s₂
      some (.lst (optTok w ++ [.str ['#'], .str r]), s₃)
  | _ => none

/-- `assignment = space + key + Optional(space + value, default=None) + semicolon`.
The value regex matches the empty string, so `space + value` never fails
and the `None` default is unreachable. -/
def parseAssignment (s : List Char) : Option (SV × List Char × Nat) :=
  let (w₁, s₁) := white s
  match keyTok s₁ with
  | none => none
  | some (k, s₂) =>
      let (w₂, s₃) := white s₂
      let (v, s₄) := valueTok s₃
      let (sk, s₅) := white s₄
      match s₅ with
      | ';' :: s₆ =>
          some (.lst (optTok w₁ ++ [.str k] ++ optTok w₂ ++ [.str v]), s₆, sk.length)
      | _ => none

/-- `Group(comment | assignment)`: a `MatchFirst`, comment tried first. -/
def parseCA (s : List Char) : Option (SV × List Char × Nat) :=
  match parseComment s with
  | some (n, r) => some (n, r, 0)
  | none => parseAssignment s

/-- `location_statement = space + Optional(modifier) + Optional(space + location + space)`.
Always succeeds; a failing inner `And` backtracks completely. -/
def parseLocStmt (s : List Char) : List SV × List Char :=
  let (w₁, s₁) := white s
  let (mtoks, s₂) :=
    match modTok s₁ with
    | some (m, r) => ([SV.str m], r)
    | none => ([], s₁)
  match white s₂ with
  | (w₂, s₃) =>
      match locTok s₃ with
      | some (l, s₄) =>
          let (w₃, s₅) := white s₄
          (optTok w₁ ++ mtoks ++ optTok w₂ ++ [.str l] ++ optTok w₃, s₅)
      | none => (optTok w₁ ++ mtoks, s₂)

/-- `Group(space + key + location_statement)`. -/
def parseGenericHeader (s : List Char) : Option (SV × List Char) :=
  let (w, s₁) := white s
  match keyTok s₁ with
  | none => none
  | some (k, s₂) =>
      let (ls, s₃) := parseLocStmt s₂
      some (.lst (optTok w ++ [.str k] ++ ls), s₃)

/-- Last index at which `c` occurs in `l`. -/
def lastIdxOf (c : Char) (l : List Char) : Option Nat :=
  ((l.enum.filter (fun p => p.2 = c)).getLast?).map (·.1)

/-- `Regex(r"\(.+\)")`: greedy `.` does not cross a newline, so the match
runs to the last `)` on the line, which must leave at least one character
between the parentheses. -/
def parenLen (s : List Char) : Option Nat :=
  match s with
  | '(' :: rest =>
      match lastIdxOf ')' (rest.takeWhile (· ≠ '\n')) with
      | some j => if 1 ≤ j then some (j + 2) else none
      | none => none
  | _ => none

/-- `if_statement = space + Literal("if") + space + Regex(r"\(.+\)") + space`. -/
def parseIfHeader (s : List Char) : Option (SV × List Char) :=
  let (w₁, s₁) := white s
  match s₁ with
  | 'i' :: 'f' :: s₂ =>
      let (w₂, s₃) := white s₂
      match parenLen s₃ with
      | some n =>
          let (w₃, s₄) := white (s₃.drop n)
          some (.lst (optTok w₁ ++ [.str ['i', 'f']] ++ optTok w₂ ++
                      [.str (s₃.take n)] ++ optTok w₃), s₄)
      | none => none
  | _ => none

/-- `Regex(r"\S+")`: maximal nonempty run of non-whitespace characters. -/
def nonWsTok (s : List Char) : Option (List Char × List Char) :=
  match s.takeWhile (fun c => !isPySpace c), s.dropWhile (fun c => !isPySpace c) with
  | [], _ => none
  | k, r => some (k, r)

/-- `map_statement = space + Literal("map") + space + Regex(r"\S+") + space + Regex(r"\$\S+") + space`. -/
def parseMapHeader (s : List Char) : Option (SV × List Char) :=
  let (w₁, s₁) := white s
  match s₁ with
  | 'm' :: 'a' :: 'p' :: s₂ =>
      let (w₂, s₃) := white s₂
      match nonWsTok s₃ with
      | none => none
      | some (a, s₄) =>
          let (w₃, s₅) := white s₄
          match s₅ with
          | '$' :: s₆ =>
              match nonWsTok s₆ with
              | none => none
              | some (b, s₇) =>
                  let (w₄, s₈) := white s₇
                  some (.lst (optTok w₁ ++ [.str ['m', 'a', 'p']] ++ optTok w₂ ++
                              [.str a] ++ optTok w₃ ++ [.str ('$' :: b)] ++ optTok w₄), s₈)
          | _ => none
  | _ => none

/-- The block header: `Group(generic) ^ Group(if_statement) ^ Group(map_statement)`,
an `Or`, i.e. longest match with ties broken by declaration order. -/
def parseHeader (s : List Char) : Option (SV × List Char) :=
  let pick : Option (SV × List Char) → Option (SV × List Char) → Option (SV × List Char) :=
    fun a b =>
      match a, b with
      | some (n, r), some (n', r') =>
          if r.length ≤ r'.length then some (n, r) else some (n', r')
      | some x, none => some x
      | none, some y => some y
      | none, none => none
  pick (pick (parseGenericHeader s) (parseIfHeader s)) (parseMapHeader s)

mutual

/-- `block = Group(header + left_bracket + Group(body + space) + right_bracket)`.
The suppressed `Literal("{")` skips whitespace left over by a backtracked
`location_statement`; those characters are counted in the `Nat` result.
`right_bracket = space.leaveWhitespace() + Literal("}").suppress()`: its
`space` token would join the group when nonempty (it never is, since the
body's trailing greedy `space` has already consumed all whitespace).
The fuel only bounds the recursion; `parseScript` supplies more than any
input can use, since every mutual call consumes input. -/
def parseBlock : Nat → List Char → Option (SV × List Char × Nat)
  | 0, _ => none
  | fuel + 1, s =>
    match parseHeader s with
    | none => none
    | some (hdr, s₁) =>
        let (sk, s₂) := white s₁
        match s₂ with
        | '{' :: s₃ =>
            match parseBody fuel s₃ with
            | (body, s₄, loss) =>
                let (w₄, s₅) := white s₄
                let (sk₂, s₆) := white s₅
                match s₆ with
                | '}' :: s₇ =>
                    some (.lst ([hdr, .lst body] ++ optTok w₄), s₇,
                          sk.length + loss + sk₂.length)
                | _ => none
        | _ => none

/-- One item of a block body: `Group(comment | assignment) | block`
(a `MatchFirst`). -/
def parseBodyItem : Nat → List Char → Option (SV × List Char × Nat)
  | 0, _ => none
  | fuel + 1, s =>
    match parseCA s with
    | some x => some x
    | none => parseBlock fuel s

/-- `ZeroOrMore(Group(comment | assignment) | block) + space`: the body
item list followed by the trailing whitespace token. -/
def parseBody : Nat → List Char → List SV × List Char × Nat
  | 0, s => let (w, r) := white s; (optTok w, r, 0)
  | fuel + 1, s =>
    match parseBodyItem fuel s with
    | some (n, r, l) =>
        match parseBody fuel r with
        | (ns, r₂, l₂) => (n :: ns, r₂, l + l₂)
    | none => let (w, r) := white s; (optTok w, r, 0)

end

/-- A top-level item: `Group(comment | assignment) ^ block` — an `Or`,
longest match, the comment/assignment group first on ties. -/
def parseTopItem (fuel : Nat) (s : List Char) : Option (SV × List Char × Nat) :=
  match parseCA s, parseBlock fuel s with
  | some (n, r, l), some (n', r', l') =>
      if r.length ≤ r'.length then some (n, r, l) else some (n', r', l')
  | some x, none => some x
  | none, some y => some y
  | none, none => none

/-- `ZeroOrMore` part of the top-level `OneOrMore`. -/
def parseTops : Nat → List Char → List SV × List Char × Nat
  | 0, s => ([], s, 0)
  | fuel + 1, s =>
    match parseTopItem fuel s with
    | some (n, r, l) =>
        match parseTops fuel r with
        | (ns, r₂, l₂) => (n :: ns, r₂, l + l₂)
    | none => ([], s, 0)

/-- `script = OneOrMore(Group(comment | assignment) ^ block) + space + stringEnd`,
i.e. `RawNginxParser.as_list()`: the parse tree of the whole input, or
`none` on a parse error (including unconsumed trailing input).  The `Nat`
is the total number of characters discarded by implicit whitespace skips.
The `script` expression is an `And` (`callPreparse = True`, whitespace
skipping inherited from its first element), so `parse_string` pre-parses
at position 0: the document-leading run of `" \n\t\r"` is skipped before
the first alternative runs (which is then entered with
`callPreParse=False`) and lands in no token — it is counted into the
loss here.  The fuel `4 * (s.length + 1)` exceeds the recursion depth
any input can force (each unit of fuel spent corresponds to at least one
consumed character, between sibling items and between nesting levels). -/
def parseScript (s : List Char) : Option (List SV × Nat) :=
  match white s with
  | (w₀, s₀) =>
      match parseTopItem (4 * (s.length + 1)) s₀ with
      | none => none
      | some (n, r, l) =>
          match parseTops (4 * (s.length + 1)) r with
          | (ns, r₂, l₂) =>
              match white r₂ with
              | (w, r₃) =>
                  match r₃ with
                  | [] => some (n :: ns ++ optTok w, w₀.length + l + l₂)
                  | _ => none

/-! ## Round-trip: auxiliary lemmas -/

theorem isWs_isPySpace {c : Char} (h : isWs c = true) : isPySpace c = true := by
  simp [isPySpace, h]

theorem isWs_of_isPySpace_ok {c : Char} (hok : okChar c = true)
    (h : isPySpace c = true) : isWs c = true := by
  by_contra hc
  rw [Bool.not_eq_true] at hc
  simp only [okChar, isPySpace, isWs, Bool.or_eq_true, Bool.and_eq_true,
    Bool.or_eq_false_iff, decide_eq_true_eq, decide_eq_false_iff_not] at *
  omega

theorem isKeyChar_not_pyspace {c : Char} (h : isKeyChar c = true) :
    isPySpace c = false := by
  by_contra hc
  rw [Bool.not_eq_false] at hc
  simp only [isKeyChar, isPySpace, isWs, Bool.or_eq_true, Bool.and_eq_true,
    decide_eq_true_eq] at *
  omega

theorem isKeyChar_not_ws {c : Char} (h : isKeyChar c = true) : isWs c = false := by
  by_contra hc
  rw [Bool.not_eq_false] at hc
  have h2 := isKeyChar_not_pyspace h
  rw [isWs_isPySpace hc] at h2
  cases h2

theorem isValStop_not_ws {c : Char} (h : isValStop c = true) : isWs c = false := by
  simp only [isValStop, Bool.or_eq_true, decide_eq_true_eq] at h
  rcases h with ((h | h) | h) | h <;> subst h <;> decide

theorem spaceySV_of_ws {w : List Char} (h : w.all isWs = true) :
    spaceySV (.str w) = true := by
  simp only [spaceySV, List.all_eq_true] at *
  exact fun c hc => isWs_isPySpace (h c hc)

theorem spaceySV_key {k : List Char} (hne : k ≠ []) (h : k.all isKeyChar = true) :
    spaceySV (.str k) = false := by
  cases k with
  | nil => exact absurd rfl hne
  | cons c t =>
    simp only [spaceySV, List.all_cons, Bool.and_eq_true] at h ⊢
    simp [isKeyChar_not_pyspace h.1]

theorem dropWhile_id_of_false {p : Char → Bool} {l : List Char}
    (h : ∀ c ∈ l, p c = false) : l.dropWhile p = l := by
  cases l with
  | nil => rfl
  | cons c t => simp [List.dropWhile_cons, h c (List.mem_cons_self c t)]

theorem pyStrip_eq_self {k : List Char} (h : ∀ c ∈ k, isPySpace c = false) :
    pyStrip k = k := by
  unfold pyStrip
  rw [dropWhile_id_of_false h,
      dropWhile_id_of_false (fun c hc => h c (List.mem_reverse.mp hc)),
      List.reverse_reverse]

theorem pyStrip_key_ne_hash {k : List Char} (hne : k ≠ [])
    (h : k.all isKeyChar = true) : pyStrip k ≠ ['#'] := by
  rw [pyStrip_eq_self (fun c hc => isKeyChar_not_pyspace (List.all_eq_true.mp h c hc))]
  intro hk
  subst hk
  simp [isKeyChar] at h

theorem spaceySV_head_ok {v : List Char} {c : Char} {t : List Char}
    (hv : v = c :: t) (hws : isWs c = false) (hok : okChar c = true) :
    spaceySV (.str v) = false := by
  subst hv
  simp only [spaceySV, List.all_cons]
  cases hpc : isPySpace c with
  | false => simp
  | true => exact absurd (isWs_of_isPySpace_ok hok hpc) (by simp [hws])

theorem takeWhile_all {p : Char → Bool} (l : List Char) :
    (l.takeWhile p).all p = true := by
  induction l with
  | nil => rfl
  | cons c t ih =>
    by_cases h : p c <;> simp [List.takeWhile_cons, h, ih]

theorem keyTok_sound {s k r : List Char} (h : keyTok s = some (k, r)) :
    k ++ r = s ∧ k ≠ [] ∧ k.all isKeyChar = true := by
  unfold keyTok at h
  cases ht : s.takeWhile isKeyChar with
  | nil => rw [ht] at h; exact absurd h (by simp)
  | cons c t =>
    rw [ht] at h
    simp only [Option.some.injEq, Prod.mk.injEq] at h
    obtain ⟨hk, hr⟩ := h
    subst hk; subst hr
    refine ⟨by rw [← ht]; exact List.takeWhile_append_dropWhile _ _, by simp, ?_⟩
    rw [← ht]
    exact takeWhile_all s

theorem white_white (s : List Char) : white ((white s).2) = ([], (white s).2) :=
  white_of_head_not_ws (white_rest_head s)

theorem joinStrs_append {xs ys : List SV} {dx dy : List Char}
    (hx : joinStrs xs = some dx) (hy : joinStrs ys = some dy) :
    joinStrs (xs ++ ys) = some (dx ++ dy) := by
  induction xs generalizing dx with
  | nil => simp only [joinStrs] at hx; cases hx; simpa using hy
  | cons a as ih =>
    cases a with
    | str sa =>
        simp only [joinStrs, Option.pure_def, Option.bind_eq_bind, Option.bind_eq_some,
          Option.some.injEq] at hx
        obtain ⟨da, hda, hdx⟩ := hx
        subst hdx
        simp only [List.cons_append, joinStrs, Option.pure_def, Option.bind_eq_bind,
          Option.bind_eq_some, Option.some.injEq]
        exact ⟨da ++ dy, ih hda, by simp⟩
    | lst _ => simp [joinStrs] at hx
    | obj _ => simp [joinStrs] at hx

theorem joinStrs_optTok (w : List Char) : joinStrs (optTok w) = some w := by
  unfold optTok
  split
  · next h => simp [h, joinStrs]
  · simp [joinStrs]

theorem dumpItems_append {xs ys : List SV} {dx dy : List Char}
    (hx : dumpItems xs = some dx) (hy : dumpItems ys = some dy) :
    dumpItems (xs ++ ys) = some (dx ++ dy) := by
  induction xs generalizing dx with
  | nil => simp only [dumpItems] at hx; cases hx; simpa using hy
  | cons a as ih =>
    simp only [dumpItems, Option.bind_eq_bind, Option.pure_def, Option.bind_eq_some,
      Option.some.injEq] at hx
    obtain ⟨da, hda, das, hdas, hdx⟩ := hx
    subst hdx
    simp only [List.cons_append, dumpItems, Option.bind_eq_bind, Option.pure_def,
      Option.bind_eq_some, Option.some.injEq]
    exact ⟨da, hda, das ++ dy, ih hdas, by simp⟩

theorem dumpItems_optTok (w : List Char) : dumpItems (optTok w) = some w := by
  unfold optTok
  split
  · next h => simp [h, dumpItems]
  · simp [dumpItems, dumpOne]

/-! ## Round-trip: soundness of the productions

Each lemma says that the dumper reproduces exactly the characters the
production consumed (given, where needed, that no characters were lost to
the implicit whitespace skips, and that the input is within the model's
character scope). -/

/-- Popping the optional indentation in `__iter__`: a node that starts
with its (possibly absent) leading-whitespace token and continues with a
non-spacey key dispatches to `dumpCore`. -/
theorem dumpList_ind (w : List Char) (key : SV) (rest : List SV)
    (hall : w.all isWs = true) (hkey : spaceySV key = false) :
    dumpList (optTok w ++ key :: rest) = dumpCore w key rest := by
  match w, hall with
  | [], _ =>
      rw [show optTok ([] : List Char) = [] from rfl, List.nil_append]
      unfold dumpList
      rw [hkey]
      simp
  | c :: t, hall =>
      have hsp : spaceySV (.str (c :: t)) = true := spaceySV_of_ws hall
      rw [show optTok (c :: t) = [SV.str (c :: t)] from by simp [optTok],
        List.singleton_append]
      unfold dumpList
      rw [hsp]
      simp

/-- The dumper's output on a comment node. -/
theorem dumpOne_comment (w rol : List Char) (hall : w.all isWs = true) :
    dumpOne (.lst (optTok w ++ [.str ['#'], .str rol])) =
      some (w ++ '#' :: rol) := by
  have h1 : spaceySV (.str ['#']) = false := rfl
  have h2 : pyStrip ['#'] = ['#'] := rfl
  show dumpList (optTok w ++ [.str ['#'], .str rol]) = _
  rw [show optTok w ++ [SV.str ['#'], SV.str rol] =
        optTok w ++ (SV.str ['#']) :: [SV.str rol] from rfl,
      dumpList_ind w _ _ hall h1]
  simp [dumpCore, h2]

/-- A comment node dumps back to exactly its consumed text. -/
theorem parseComment_sound {s : List Char} {n : SV} {r : List Char}
    (h : parseComment s = some (n, r)) :
    ∃ d, dumpOne n = some d ∧ d ++ r = s := by
  unfold parseComment at h
  split at h
  next w s₁ hw =>
  have hws : w ++ s₁ = s := by have := white_append s; rw [hw] at this; exact this
  have hall : w.all isWs = true := by have := white_all s; rw [hw] at this; exact this
  split at h
  · next s₂ =>
    simp only [restOfLine, Option.some.injEq, Prod.mk.injEq] at h
    obtain ⟨hn, hr⟩ := h
    subst hn; subst hr
    refine ⟨w ++ '#' :: s₂.takeWhile (· ≠ '\n'), dumpOne_comment _ _ hall, ?_⟩
    have := List.takeWhile_append_dropWhile (l := s₂) (p := (· ≠ '\n'))
    rw [← hws]
    simp only [List.append_assoc, List.cons_append, List.cons.injEq, this]
  · cases h

/-- The dumper's output on a directive node.  When there is no captured
gap between key and value, the value must be empty or start with a
non-whitespace character, otherwise the dumper's gap rotation would
misfire. -/
theorem dumpOne_assignment (w₁ k w₂ v : List Char)
    (hall₁ : w₁.all isWs = true) (hk : k ≠ []) (hkc : k.all isKeyChar = true)
    (hall₂ : w₂.all isWs = true)
    (hgood : w₂ = [] → (v = [] ∨ spaceySV (.str v) = false)) :
    dumpOne (.lst (optTok w₁ ++ [.str k] ++ optTok w₂ ++ [.str v])) =
      some (w₁ ++ k ++ w₂ ++ v ++ [';']) := by
  have hknsp : spaceySV (.str k) = false := spaceySV_key hk hkc
  have hknh : pyStrip k ≠ ['#'] := pyStrip_key_ne_hash hk hkc
  have hcore : dumpCore w₁ (.str k) (optTok w₂ ++ [.str v]) =
      some (w₁ ++ k ++ w₂ ++ v ++ [';']) := by
    by_cases hw₂ : w₂ = []
    · subst hw₂
      rcases hgood rfl with hv | hv
      · subst hv
        simp [optTok, dumpCore, hknh, spaceySV]
      · simp [optTok, dumpCore, hknh, hv]
    · have hsp₂ : spaceySV (.str w₂) = true := spaceySV_of_ws hall₂
      simp [optTok, if_neg hw₂, dumpCore, hknh, hsp₂, hw₂]
  show dumpList (optTok w₁ ++ [.str k] ++ optTok w₂ ++ [.str v]) = _
  rw [show optTok w₁ ++ [SV.str k] ++ optTok w₂ ++ [SV.str v] =
        optTok w₁ ++ (SV.str k) :: (optTok w₂ ++ [SV.str v]) by simp,
      dumpList_ind w₁ _ _ hall₁ hknsp]
  exact hcore

/-- A directive node dumps back to exactly its consumed text, and the
implicit skip before the suppressed `;` is always empty. -/
theorem parseAssignment_sound {s : List Char} {n : SV} {r : List Char} {l : Nat}
    (hok : ∀ c ∈ s, okChar c = true)
    (h : parseAssignment s = some (n, r, l)) :
    l = 0 ∧ ∃ d, dumpOne n = some d ∧ d ++ r = s := by
  unfold parseAssignment at h
  split at h
  next w₁ s₁ hw₁ =>
  have h1 : w₁ ++ s₁ = s := by have := white_append s; rw [hw₁] at this; exact this
  have hall₁ : w₁.all isWs = true := by have := white_all s; rw [hw₁] at this; exact this
  split at h
  · cases h
  · next k s₂ hk =>
    obtain ⟨h2, hkne, hkc⟩ := keyTok_sound hk
    split at h
    next w₂ s₃ hw₂ =>
    have h3 : w₂ ++ s₃ = s₂ := by have := white_append s₂; rw [hw₂] at this; exact this
    have hall₂ : w₂.all isWs = true := by
      have := white_all s₂; rw [hw₂] at this; exact this
    split at h
    next v s₄ hv =>
    have h4 : v ++ s₄ = s₃ := by have := valueTok_append s₃; rw [hv] at this; exact this
    have hs₄ : s₄ = [] ∨ ∃ c t, s₄ = c :: t ∧ isWs c = false := by
      have := valueTok_rest s₃
      rw [hv] at this
      rcases this with hnil | ⟨c, t, hct, hstop⟩
      · exact Or.inl hnil
      · exact Or.inr ⟨c, t, hct, isValStop_not_ws hstop⟩
    have hwh : white s₄ = ([], s₄) := white_of_head_not_ws hs₄
    split at h
    next sk s₅ hsk =>
    rw [hwh] at hsk
    obtain ⟨hskn, hs₅⟩ := Prod.mk.injEq .. ▸ hsk
    have hsk0 : sk = [] := hskn.symm
    have hs₅e : s₅ = s₄ := hs₅.symm
    split at h
    · next _ s₆ =>
      simp only [Option.some.injEq, Prod.mk.injEq] at h
      obtain ⟨hn, hr, hl⟩ := h
      subst hn; subst hr
      constructor
      · rw [← hl, hsk0]; rfl
      · -- membership of s₃'s characters in s
        have hsub : ∀ c ∈ s₃, c ∈ s := by
          intro c hc
          have m3 : c ∈ s₂ := h3 ▸ List.mem_append_right w₂ hc
          have m2 : c ∈ s₁ := h2 ▸ List.mem_append_right k m3
          exact h1 ▸ List.mem_append_right w₁ m2
        have hgood : w₂ = [] → (v = [] ∨ spaceySV (.str v) = false) := by
          intro hw₂e
          cases hvcase : v with
          | nil => exact Or.inl rfl
          | cons c t =>
              right
              have hs₃ : s₃ = c :: (t ++ s₄) := by
                rw [← h4, hvcase]; simp
              have hhead : isWs c = false := by
                have := white_rest_head s₂
                rw [hw₂] at this
                dsimp only at this
                rcases this with hnil | ⟨c', t', hct', hws'⟩
                · rw [hnil] at hs₃; cases hs₃
                · rw [hct'] at hs₃
                  injection hs₃ with hcc _
                  exact hcc ▸ hws'
              have hco : okChar c = true := hok c (hsub c (hs₃ ▸ List.mem_cons_self c _))
              exact spaceySV_head_ok rfl hhead hco
        refine ⟨w₁ ++ k ++ w₂ ++ v ++ [';'],
          dumpOne_assignment w₁ k w₂ v hall₁ hkne hkc hall₂ hgood, ?_⟩
        rw [← h1, ← h2, ← h3, ← h4, hs₅]
        simp
    · cases h

/-- `Group(comment | assignment)` dumps back to its consumed text. -/
theorem parseCA_sound {s : List Char} {n : SV} {r : List Char} {l : Nat}
    (hok : ∀ c ∈ s, okChar c = true)
    (h : parseCA s = some (n, r, l)) :
    l = 0 ∧ ∃ d, dumpOne n = some d ∧ d ++ r = s := by
  unfold parseCA at h
  split at h
  · next n' r' hc =>
    simp only [Option.some.injEq, Prod.mk.injEq] at h
    obtain ⟨hn, hr, hl⟩ := h
    subst hn; subst hr
    exact ⟨hl.symm, parseComment_sound hc⟩
  · next => exact parseAssignment_sound hok h

theorem modTok_sound {s m r : List Char} (h : modTok s = some (m, r)) :
    m ++ r = s := by
  unfold modTok at h
  split at h <;>
    first
      | (simp only [Option.some.injEq, Prod.mk.injEq] at h;
         obtain ⟨hm, hr⟩ := h; subst hm; subst hr; rfl)
      | cases h

theorem locTok_sound {s k r : List Char} (h : locTok s = some (k, r)) :
    k ++ r = s := by
  unfold locTok at h
  cases ht : s.takeWhile (fun c => !isLocStop c) with
  | nil => rw [ht] at h; exact absurd h (by simp)
  | cons c t =>
    rw [ht] at h
    simp only [Option.some.injEq, Prod.mk.injEq] at h
    obtain ⟨hk, hr⟩ := h
    subst hk; subst hr
    rw [← ht]
    exact List.takeWhile_append_dropWhile _ _

theorem nonWsTok_sound {s k r : List Char} (h : nonWsTok s = some (k, r)) :
    k ++ r = s := by
  unfold nonWsTok at h
  cases ht : s.takeWhile (fun c => !isPySpace c) with
  | nil => rw [ht] at h; exact absurd h (by simp)
  | cons c t =>
    rw [ht] at h
    simp only [Option.some.injEq, Prod.mk.injEq] at h
    obtain ⟨hk, hr⟩ := h
    subst hk; subst hr
    rw [← ht]
    exact List.takeWhile_append_dropWhile _ _

/-- `location_statement` joins back to exactly its consumed text. -/
theorem parseLocStmt_sound {s : List Char} {toks : List SV} {r : List Char}
    (h : parseLocStmt s = (toks, r)) :
    ∃ d, joinStrs toks = some d ∧ d ++ r = s := by
  unfold parseLocStmt at h
  split at h
  next w₁ s₁ hw₁ =>
  have h1 : w₁ ++ s₁ = s := by have := white_append s; rw [hw₁] at this; exact this
  split at h
  next mtoks s₂ hm =>
  -- hm relates (mtoks, s₂) to the modifier match; recover the text of mtoks
  have hmt : ∃ dm, joinStrs mtoks = some dm ∧ dm ++ s₂ = s₁ := by
    split at hm
    · next m r' hmod =>
      simp only [Prod.mk.injEq] at hm
      obtain ⟨hm1, hm2⟩ := hm
      subst hm1; subst hm2
      exact ⟨m, by simp [joinStrs], modTok_sound hmod⟩
    · next =>
      simp only [Prod.mk.injEq] at hm
      obtain ⟨hm1, hm2⟩ := hm
      subst hm1; subst hm2
      exact ⟨[], by simp [joinStrs], rfl⟩
  obtain ⟨dm, hdm, hdm2⟩ := hmt
  split at h
  next w₂ s₃ hw₂ =>
  have h3 : w₂ ++ s₃ = s₂ := by have := white_append s₂; rw [hw₂] at this; exact this
  have hall₂ : w₂.all isWs = true := by
    have := white_all s₂; rw [hw₂] at this; exact this
  split at h
  · next lt s₄ hlt =>
    split at h
    next w₃ s₅ hw₃ =>
    have h5 : w₃ ++ s₅ = s₄ := by have := white_append s₄; rw [hw₃] at this; exact this
    simp only [Prod.mk.injEq] at h
    obtain ⟨htoks, hr⟩ := h
    subst htoks; subst hr
    refine ⟨w₁ ++ (dm ++ (w₂ ++ (lt ++ w₃))), ?_, ?_⟩
    · rw [show optTok w₁ ++ mtoks ++ optTok w₂ ++ [SV.str lt] ++ optTok w₃ =
            optTok w₁ ++ (mtoks ++ (optTok w₂ ++ ([SV.str lt] ++ optTok w₃))) by simp]
      exact joinStrs_append (joinStrs_optTok w₁)
        (joinStrs_append hdm
          (joinStrs_append (joinStrs_optTok w₂)
            (joinStrs_append (show joinStrs [.str lt] = some lt by simp [joinStrs])
              (joinStrs_optTok w₃))))
    · rw [← h1, ← hdm2, ← h3, ← locTok_sound hlt, ← h5]
      simp
  · next =>
    simp only [Prod.mk.injEq] at h
    obtain ⟨htoks, hr⟩ := h
    subst htoks; subst hr
    refine ⟨w₁ ++ dm, ?_, ?_⟩
    · exact joinStrs_append (joinStrs_optTok w₁) hdm
    · rw [← h1, ← hdm2]
      simp

/-- A generic block header joins back to exactly its consumed text. -/
theorem parseGenericHeader_sound {s : List Char} {n : SV} {r : List Char}
    (h : parseGenericHeader s = some (n, r)) :
    ∃ toks d, n = .lst toks ∧ joinStrs toks = some d ∧ d ++ r = s := by
  unfold parseGenericHeader at h
  split at h
  next w s₁ hw =>
  have h1 : w ++ s₁ = s := by have := white_append s; rw [hw] at this; exact this
  split at h
  · cases h
  · next k s₂ hk =>
    obtain ⟨h2, _, _⟩ := keyTok_sound hk
    split at h
    next ls s₃ hls =>
    obtain ⟨dl, hdl, hdl2⟩ := parseLocStmt_sound hls
    simp only [Option.some.injEq, Prod.mk.injEq] at h
    obtain ⟨hn, hr⟩ := h
    subst hn; subst hr
    refine ⟨optTok w ++ [.str k] ++ ls, w ++ (k ++ dl), rfl, ?_, ?_⟩
    · rw [show optTok w ++ [SV.str k] ++ ls = optTok w ++ ([SV.str k] ++ ls) by simp]
      exact joinStrs_append (joinStrs_optTok w)
        (joinStrs_append (show joinStrs [.str k] = some k by simp [joinStrs]) hdl)
    · rw [← h1, ← h2, ← hdl2]
      simp

/-- An `if` block header joins back to exactly its consumed text. -/
theorem parseIfHeader_sound {s : List Char} {n : SV} {r : List Char}
    (h : parseIfHeader s = some (n, r)) :
    ∃ toks d, n = .lst toks ∧ joinStrs toks = some d ∧ d ++ r = s := by
  unfold parseIfHeader at h
  split at h
  next w₁ s₁ hw₁ =>
  have h1 : w₁ ++ s₁ = s := by have := white_append s; rw [hw₁] at this; exact this
  split at h
  · next s₂ =>
    split at h
    next w₂ s₃ hw₂ =>
    have h3 : w₂ ++ s₃ = s₂ := by have := white_append s₂; rw [hw₂] at this; exact this
    split at h
    · next pn hpn =>
      split at h
      next w₃ s₄ hw₃ =>
      have h4 : w₃ ++ s₄ = s₃.drop pn := by
        have := white_append (s₃.drop pn); rw [hw₃] at this; exact this
      simp only [Option.some.injEq, Prod.mk.injEq] at h
      obtain ⟨hn, hr⟩ := h
      subst hn; subst hr
      refine ⟨_, w₁ ++ ('i' :: 'f' :: (w₂ ++ (s₃.take pn ++ w₃))), rfl, ?_, ?_⟩
      · rw [show optTok w₁ ++ [SV.str ['i', 'f']] ++ optTok w₂ ++ [SV.str (s₃.take pn)] ++
              optTok w₃ =
              optTok w₁ ++ ([SV.str ['i', 'f']] ++ (optTok w₂ ++
                ([SV.str (s₃.take pn)] ++ optTok w₃))) by simp]
        exact joinStrs_append (joinStrs_optTok w₁)
          (joinStrs_append (show joinStrs [.str ['i', 'f']] = some ['i', 'f'] by
              simp [joinStrs])
            (joinStrs_append (joinStrs_optTok w₂)
              (joinStrs_append (show joinStrs [.str (s₃.take pn)] = some (s₃.take pn) by
                  simp [joinStrs]) (joinStrs_optTok w₃))))
      · conv_rhs => rw [← h1, ← h3, ← List.take_append_drop pn s₃, ← h4]
        simp
    · cases h
  · cases h

/-- A `map` block header joins back to exactly its consumed text. -/
theorem parseMapHeader_sound {s : List Char} {n : SV} {r : List Char}
    (h : parseMapHeader s = some (n, r)) :
    ∃ toks d, n = .lst toks ∧ joinStrs toks = some d ∧ d ++ r = s := by
  unfold parseMapHeader at h
  split at h
  next w₁ s₁ hw₁ =>
  have h1 : w₁ ++ s₁ = s := by have := white_append s; rw [hw₁] at this; exact this
  split at h
  · next s₂ =>
    split at h
    next w₂ s₃ hw₂ =>
    have h3 : w₂ ++ s₃ = s₂ := by have := white_append s₂; rw [hw₂] at this; exact this
    split at h
    · cases h
    · next a s₄ ha =>
      have h4 : a ++ s₄ = s₃ := nonWsTok_sound ha
      split at h
      next w₃ s₅ hw₃ =>
      have h5 : w₃ ++ s₅ = s₄ := by have := white_append s₄; rw [hw₃] at this; exact this
      split at h
      · next s₆ =>
        split at h
        · cases h
        · next b s₇ hb =>
          have h7 : b ++ s₇ = s₆ := nonWsTok_sound hb
          split at h
          next w₄ s₈ hw₄ =>
          have h8 : w₄ ++ s₈ = s₇ := by
            have := white_append s₇; rw [hw₄] at this; exact this
          simp only [Option.some.injEq, Prod.mk.injEq] at h
          obtain ⟨hn, hr⟩ := h
          subst hn; subst hr
          refine ⟨_, w₁ ++ ('m' :: 'a' :: 'p' :: (w₂ ++ (a ++ (w₃ ++
            ('$' :: (b ++ w₄)))))), rfl, ?_, ?_⟩
          · rw [show optTok w₁ ++ [SV.str ['m', 'a', 'p']] ++ optTok w₂ ++ [SV.str a] ++
                  optTok w₃ ++ [SV.str ('$' :: b)] ++ optTok w₄ =
                  optTok w₁ ++ ([SV.str ['m', 'a', 'p']] ++ (optTok w₂ ++ ([SV.str a] ++
                    (optTok w₃ ++ ([SV.str ('$' :: b)] ++ optTok w₄))))) by simp]
            exact joinStrs_append (joinStrs_optTok w₁)
              (joinStrs_append (show joinStrs [.str ['m', 'a', 'p']] =
                  some ['m', 'a', 'p'] by simp [joinStrs])
                (joinStrs_append (joinStrs_optTok w₂)
                  (joinStrs_append (show joinStrs [.str a] = some a by simp [joinStrs])
                    (joinStrs_append (joinStrs_optTok w₃)
                      (joinStrs_append (show joinStrs [.str ('$' :: b)] =
                          some ('$' :: b) by simp [joinStrs])
                        (joinStrs_optTok w₄))))))
          · conv_rhs => rw [← h1, ← h3, ← h4, ← h5, ← h7, ← h8]
            simp
      · cases h
  · cases h

/-- The longest-match selection of an `Or` of two alternatives preserves
any property that both alternatives guarantee for their results. -/
theorem pick_or_sound {P : SV → List Char → Prop}
    {a b : Option (SV × List Char)} {n : SV} {r : List Char}
    (hm : (match a, b with
           | some (n', r'), some (n'', r'') =>
               if r'.length ≤ r''.length then some (n', r') else some (n'', r'')
           | some x, none => some x
           | none, some y => some y
           | none, none => none) = some (n, r))
    (ha : ∀ x y, a = some (x, y) → P x y)
    (hb : ∀ x y, b = some (x, y) → P x y) : P n r := by
  split at hm
  · next n' r' n'' r'' =>
    split at hm
    · cases hm; exact ha _ _ rfl
    · cases hm; exact hb _ _ rfl
  · next _ => cases hm; exact ha _ _ rfl
  · next _ => cases hm; exact hb _ _ rfl
  · cases hm

/-- The header `Or` joins back to exactly its consumed text (whichever
alternative the longest-match rule selects). -/
theorem parseHeader_sound {s : List Char} {n : SV} {r : List Char}
    (h : parseHeader s = some (n, r)) :
    ∃ toks d, n = .lst toks ∧ joinStrs toks = some d ∧ d ++ r = s := by
  unfold parseHeader at h
  dsimp only at h
  refine pick_or_sound h ?_ (fun x y hxy => parseMapHeader_sound hxy)
  intro x y hxy
  exact pick_or_sound hxy (fun x' y' h' => parseGenericHeader_sound h')
    (fun x' y' h' => parseIfHeader_sound h')

theorem okChar_suffix {d r s : List Char} (h : d ++ r = s)
    (hok : ∀ c ∈ s, okChar c = true) : ∀ c ∈ r, okChar c = true :=
  fun c hc => hok c (h ▸ List.mem_append_right d hc)

theorem dumpItems_cons {x : SV} {xs : List SV} {dx ds : List Char}
    (hx : dumpOne x = some dx) (hxs : dumpItems xs = some ds) :
    dumpItems (x :: xs) = some (dx ++ ds) := by
  simp only [dumpItems, Option.pure_def, Option.bind_eq_bind, Option.bind_eq_some,
    Option.some.injEq]
  exact ⟨dx, hx, ds, hxs, rfl⟩

/-- The dumper's output on a block node. -/
theorem dumpOne_block {toks body : List SV} {dh db : List Char}
    (hjoin : joinStrs toks = some dh) (hdb : dumpItems body = some db) :
    dumpOne (.lst [.lst toks, .lst body]) = some (dh ++ '{' :: (db ++ ['}'])) := by
  show dumpList [SV.lst toks, SV.lst body] = _
  unfold dumpList
  rw [show spaceySV (.lst toks) = false from rfl]
  simp only [Bool.false_eq_true, if_false]
  unfold dumpCore
  simp only [hjoin, Option.pure_def, Option.bind_eq_bind, Option.bind_some]
  unfold dumpValues
  simp [hdb]

/-- Soundness of the mutually recursive block / body-item / body parsers:
whatever they accept dumps back to exactly the consumed text, provided no
characters were lost to the implicit whitespace skip before `{`.  The
body's remaining input never starts with whitespace (its trailing greedy
`space` has consumed it), which is what makes the skips before `}` and the
captured `right_bracket` whitespace empty. -/
theorem parse_mutual_sound (fuel : Nat) :
    (∀ s n r l, (∀ c ∈ s, okChar c = true) → parseBlock fuel s = some (n, r, l) →
      l = 0 → ∃ d, dumpOne n = some d ∧ d ++ r = s) ∧
    (∀ s n r l, (∀ c ∈ s, okChar c = true) → parseBodyItem fuel s = some (n, r, l) →
      l = 0 → ∃ d, dumpOne n = some d ∧ d ++ r = s) ∧
    (∀ s items r l, (∀ c ∈ s, okChar c = true) → parseBody fuel s = (items, r, l) →
      l = 0 → ∃ d, dumpItems items = some d ∧ d ++ r = s ∧ white r = ([], r)) := by
  induction fuel with
  | zero =>
    refine ⟨?_, ?_, ?_⟩
    · intro s n r l _ h _
      rw [parseBlock] at h
      cases h
    · intro s n r l _ h _
      rw [parseBodyItem] at h
      cases h
    · intro s items r l _ h _
      rw [parseBody] at h
      split at h
      next w r' hw =>
      simp only [Prod.mk.injEq] at h
      obtain ⟨hitems, hr, _⟩ := h
      subst hitems; subst hr
      refine ⟨w, dumpItems_optTok w, ?_, ?_⟩
      · have := white_append s; rw [hw] at this; exact this
      · have h1 := white_of_head_not_ws (white_rest_head s)
        rw [hw] at h1
        exact h1
  | succ f ih =>
    obtain ⟨ihB, ihI, ihD⟩ := ih
    have hbody : ∀ s items r l, (∀ c ∈ s, okChar c = true) →
        parseBody (f + 1) s = (items, r, l) → l = 0 →
        ∃ d, dumpItems items = some d ∧ d ++ r = s ∧ white r = ([], r) := by
      intro s items r l hok h hl
      rw [parseBody] at h
      split at h
      · next n' r' l' hitem =>
        split at h
        next ns r₂ l₂ hrest =>
        simp only [Prod.mk.injEq] at h
        obtain ⟨hitems, hr, hlsum⟩ := h
        subst hitems; subst hr
        have hl' : l' = 0 := by omega
        have hl₂ : l₂ = 0 := by omega
        obtain ⟨d₁, hd₁, hd₁eq⟩ := ihI s n' r' l' hok hitem hl'
        have hokr : ∀ c ∈ r', okChar c = true := okChar_suffix hd₁eq hok
        obtain ⟨d₂, hd₂, hd₂eq, hwr⟩ := ihD r' ns r₂ l₂ hokr hrest hl₂
        refine ⟨d₁ ++ d₂, dumpItems_cons hd₁ hd₂, ?_, hwr⟩
        rw [← hd₁eq, ← hd₂eq]
        simp
      · next =>
        split at h
        next w r' hw =>
        simp only [Prod.mk.injEq] at h
        obtain ⟨hitems, hr, _⟩ := h
        subst hitems; subst hr
        refine ⟨w, dumpItems_optTok w, ?_, ?_⟩
        · have := white_append s; rw [hw] at this; exact this
        · have h1 := white_of_head_not_ws (white_rest_head s)
          rw [hw] at h1
          exact h1
    have hblock : ∀ s n r l, (∀ c ∈ s, okChar c = true) →
        parseBlock (f + 1) s = some (n, r, l) → l = 0 →
        ∃ d, dumpOne n = some d ∧ d ++ r = s := by
      intro s n r l hok h hl
      rw [parseBlock] at h
      split at h
      · cases h
      · next hdr s₁ hhdr =>
        obtain ⟨toks, dh, hn_lst, hjoin, hdh⟩ := parseHeader_sound hhdr
        split at h
        next sk s₂ hsk =>
        have hsk_app : sk ++ s₂ = s₁ := by
          have := white_append s₁; rw [hsk] at this; exact this
        split at h
        · next s₃ =>
          split at h
          next body s₄ loss hbodyeq =>
          split at h
          next w₄ s₅ hw₄ =>
          split at h
          next sk₂ s₆ hsk₂ =>
          split at h
          · next s₇ =>
            simp only [Option.some.injEq, Prod.mk.injEq] at h
            obtain ⟨hn, hr, hlsum⟩ := h
            subst hn; subst hr
            have hsk0 : sk = [] := by
              have : sk.length = 0 := by omega
              exact List.length_eq_zero.mp this
            have hloss : loss = 0 := by omega
            have hs₁ : s₁ = '{' :: s₃ := by rw [← hsk_app, hsk0]; rfl
            -- characters of s₃ are characters of s
            have hok₁ : ∀ c ∈ s₁, okChar c = true := okChar_suffix hdh hok
            have hok₃ : ∀ c ∈ s₃, okChar c = true := by
              intro c hc
              exact hok₁ c (by rw [hs₁]; exact List.mem_cons_of_mem _ hc)
            obtain ⟨db, hdb, hdbeq, hwhite₄⟩ :=
              ihD s₃ body s₄ loss hok₃ hbodyeq hloss
            rw [hwhite₄] at hw₄
            obtain ⟨hw₄n, hs₅⟩ := Prod.mk.injEq .. ▸ hw₄
            have hw₄e : w₄ = [] := hw₄n.symm
            rw [← hs₅] at hsk₂
            rw [hwhite₄] at hsk₂
            obtain ⟨hsk₂n, hs₄eq⟩ := Prod.mk.injEq .. ▸ hsk₂
            refine ⟨dh ++ '{' :: (db ++ ['}']), ?_, ?_⟩
            · rw [hn_lst, hw₄e]
              simpa [optTok] using dumpOne_block hjoin hdb
            · conv_rhs => rw [← hdh, hs₁, ← hdbeq, hs₄eq]
              simp
          · cases h
        · cases h
    exact ⟨hblock, fun s n r l hok h hl => by
      rw [parseBodyItem] at h
      split at h
      · next x hCA =>
        cases h
        exact (parseCA_sound hok hCA).2
      · next => exact ihB s n r l hok h hl, hbody⟩

/-- A top-level item (the `Or` of comment/assignment and block) dumps back
to its consumed text when nothing was lost to implicit skips. -/
theorem parseTopItem_sound {fuel : Nat} {s : List Char} {n : SV} {r : List Char}
    {l : Nat} (hok : ∀ c ∈ s, okChar c = true)
    (h : parseTopItem fuel s = some (n, r, l)) (hl : l = 0) :
    ∃ d, dumpOne n = some d ∧ d ++ r = s := by
  unfold parseTopItem at h
  split at h
  · next a b c a' b' c' hCA hB =>
    split at h
    · cases h; exact (parseCA_sound hok hCA).2
    · cases h; exact (parse_mutual_sound fuel).1 s n r l hok hB hl
  · next x hCA hB => cases h; exact (parseCA_sound hok hCA).2
  · next y hCA hB => cases h; exact (parse_mutual_sound fuel).1 s n r l hok hB hl
  · cases h

/-- The top-level `ZeroOrMore` loop dumps back to its consumed text. -/
theorem parseTops_sound (fuel : Nat) :
    ∀ s items r l, (∀ c ∈ s, okChar c = true) → parseTops fuel s = (items, r, l) →
      l = 0 → ∃ d, dumpItems items = some d ∧ d ++ r = s := by
  induction fuel with
  | zero =>
    intro s items r l _ h _
    rw [parseTops] at h
    simp only [Prod.mk.injEq] at h
    obtain ⟨hitems, hr, _⟩ := h
    subst hitems; subst hr
    exact ⟨[], rfl, rfl⟩
  | succ f ih =>
    intro s items r l hok h hl
    rw [parseTops] at h
    split at h
    · next n' r' l' hitem =>
      split at h
      next ns r₂ l₂ hrest =>
      simp only [Prod.mk.injEq] at h
      obtain ⟨hitems, hr, hlsum⟩ := h
      subst hitems; subst hr
      have hl' : l' = 0 := by omega
      have hl₂ : l₂ = 0 := by omega
      obtain ⟨d₁, hd₁, hd₁eq⟩ := parseTopItem_sound hok hitem hl'
      obtain ⟨d₂, hd₂, hd₂eq⟩ := ih r' ns r₂ l₂ (okChar_suffix hd₁eq hok) hrest hl₂
      refine ⟨d₁ ++ d₂, dumpItems_cons hd₁ hd₂, ?_⟩
      rw [← hd₁eq, ← hd₂eq]
      simp
    · simp only [Prod.mk.injEq] at h
      obtain ⟨hitems, hr, _⟩ := h
      subst hitems; subst hr
      exact ⟨[], rfl, rfl⟩

/-- Round-trip soundness of the whole script parser: if parsing consumed
every character it saw (no implicit-skip loss), the dumper reproduces the
input byte for byte. -/
theorem parseScript_sound {s : List Char} {tree : List SV}
    (hok : ∀ c ∈ s, okChar c = true)
    (h : parseScript s = some (tree, 0)) :
    dumpItems tree = some s := by
  unfold parseScript at h
  split at h
  next w₀ s₀ hw₀ =>
  split at h
  · cases h
  · next n r l hitem =>
    split at h
    next ns r₂ l₂ hrest =>
    split at h
    next w r₃ hw =>
    split at h
    · next =>
      simp only [Option.some.injEq, Prod.mk.injEq] at h
      obtain ⟨htree, hlsum⟩ := h
      subst htree
      have hw₀0 : w₀ = [] := by
        have : w₀.length = 0 := by omega
        exact List.length_eq_zero.mp this
      have hs₀ : s₀ = s := by
        have := white_append s
        rw [hw₀, hw₀0] at this
        simpa using this
      rw [hs₀] at hitem
      have hl : l = 0 := by omega
      have hl₂ : l₂ = 0 := by omega
      obtain ⟨d₁, hd₁, hd₁eq⟩ := parseTopItem_sound hok hitem hl
      obtain ⟨d₂, hd₂, hd₂eq⟩ :=
        parseTops_sound _ r ns r₂ l₂ (okChar_suffix hd₁eq hok) hrest hl₂
      have hwapp : w ++ ([] : List Char) = r₂ := by
        have := white_append r₂; rw [hw] at this; exact this
      have hw_eq : w = r₂ := by simpa using hwapp
      have hfull : dumpItems ((n :: ns) ++ optTok w) = some ((d₁ ++ d₂) ++ w) :=
        dumpItems_append (dumpItems_cons hd₁ hd₂) (dumpItems_optTok w)
      rw [hfull, hw_eq]
      conv_rhs => rw [← hd₁eq, ← hd₂eq]
      simp
    · cases h

/-! ## Decidable equality for the raw value tree -/

mutual

def svDecEq : (a b : SV) → Decidable (a = b)
  | .str x, .str y =>
      match decEq x y with
      | isTrue h => isTrue (by rw [h])
      | isFalse h => isFalse (by intro hc; cases hc; exact h rfl)
  | .obj x, .obj y =>
      match decEq x y with
      | isTrue h => isTrue (by rw [h])
      | isFalse h => isFalse (by intro hc; cases hc; exact h rfl)
  | .lst xs, .lst ys =>
      match svListDecEq xs ys with
      | isTrue h => isTrue (by rw [h])
      | isFalse h => isFalse (by intro hc; cases hc; exact h rfl)
  | .str _, .lst _ => isFalse (by intro h; cases h)
  | .str _, .obj _ => isFalse (by intro h; cases h)
  | .lst _, .str _ => isFalse (by intro h; cases h)
  | .lst _, .obj _ => isFalse (by intro h; cases h)
  | .obj _, .str _ => isFalse (by intro h; cases h)
  | .obj _, .lst _ => isFalse (by intro h; cases h)

def svListDecEq : (a b : List SV) → Decidable (a = b)
  | [], [] => isTrue rfl
  | [], _ :: _ => isFalse (by intro h; cases h)
  | _ :: _, [] => isFalse (by intro h; cases h)
  | x :: xs, y :: ys =>
      match svDecEq x y, svListDecEq xs ys with
      | isTrue h1, isTrue h2 => isTrue (by rw [h1, h2])
      | isFalse h1, _ => isFalse (by intro hc; cases hc; exact h1 rfl)
      | _, isFalse h2 => isFalse (by intro hc; cases hc; exact h2 rfl)

end

instance : DecidableEq SV := svDecEq

/-! ## The dual-view list (`UnspacedList`)

A pure model of `UnspacedList`: a pair of a logical view (whitespace
entries elided, sublists wrapped) and a formatted (`spaced`) view.  The
`spaced` tree stored in a nested logical sublist is, by construction, the
same value as the corresponding entry of the parent's `spaced` view
(mirroring the aliasing `self.spaced[i] = sublist.spaced` in `__init__`);
single-level operations, which are what this model is used to reason
about, read and write only the two views of the operated-on object, just
as the Python methods do. -/

mutual

inductive UL where
  | mk : List LEnt → List SV → UL

/-- An entry of the logical view: a string leaf, an opaque non-string
non-list object, or a nested dual-view sublist. -/
inductive LEnt where
  | str : List Char → LEnt
  | obj : Int → LEnt
  | sub : UL → LEnt

end

def UL.logical : UL → List LEnt
  | .mk lg _ => lg

def UL.spaced : UL → List SV
  | .mk _ sp => sp

/-- Is the raw entry a Python `str`? (for the `spaceout` branch's
`all([isinstance(entry, str) for entry in self.spaced])`). -/
def svIsStr : SV → Bool
  | .str _ => true
  | _ => false

/-- The `spaceout` construction:
`reduce(lambda x, y: x + [" ", y], rest, first)` followed by
`insert(0, "\n")`: interleave single spaces between the entries and
prepend a newline. -/
def spaceoutSpaced (xs : List SV) : List SV :=
  .str ['\n'] :: (xs.take 1 ++ (xs.drop 1).flatMap (fun y => [.str [' '], y]))

/-- Does the Python equality test `"#" in prefix` succeed, i.e. is some
entry the one-character string `#`?  (A list or non-string entry never
equals a string in Python.) -/
def hashEnt : SV → Bool
  | .str cs => cs = ['#']
  | _ => false

mutual

/-- The `__init__` loop's effect on the logical view, walking the source
left to right with the flag "has a `#` entry occurred in the prefix". -/
def ULlogical : List SV → Bool → Bool → List LEnt
  | [], _, _ => []
  | e :: rest, sh, so => ULentL e sh so (ULlogical rest (sh || hashEnt e) so)

/-- One entry's contribution to the logical view, given the already
processed tail: a whitespace-only string leaf is elided unless a `#`
entry occurred earlier at this level; a list entry is recursively
wrapped into a dual-view sublist (built exactly as `ULinit` builds it),
and dropped when its logical view is empty while its formatted view is
not; anything else is kept. -/
def ULentL : SV → Bool → Bool → List LEnt → List LEnt
  | .str cs, sh, _, tail =>
      if spaceySV (.str cs) && !sh then tail else .str cs :: tail
  | .obj n, _, _, tail => .obj n :: tail
  | .lst e', _, so, tail =>
      let sub : UL := .mk (ULlogical e' false so)
        (if so && e'.all svIsStr then spaceoutSpaced e' else ULspacedMap e' so)
      if sub.logical.isEmpty && !sub.spaced.isEmpty then tail
      else .sub sub :: tail

/-- The `__init__` loop's effect on the `spaced` view: each list entry is
replaced by the recursively built sublist's `spaced` view
(`self.spaced[i] = sublist.spaced`); other entries are kept as their deep
copies. -/
def ULspacedMap : List SV → Bool → List SV
  | [], _ => []
  | e :: rest, so => ULentS e so :: ULspacedMap rest so

/-- `self.spaced[i] = sublist.spaced` for one entry. -/
def ULentS : SV → Bool → SV
  | .lst e', so =>
      .lst (if so && e'.all svIsStr then spaceoutSpaced e' else ULspacedMap e' so)
  | e, _ => e

end

/-- `UnspacedList.__init__`: the logical view elides whitespace, the
`spaced` view is the deep copy of the source (interleaved with
synthesized whitespace in `spaceout` mode when all entries are strings —
in which case there are no list entries to patch), with list entries
replaced by their sublists' `spaced` views. -/
def ULinit (src : List SV) (so : Bool) : UL :=
  .mk (ULlogical src false so)
    (if so && src.all svIsStr then spaceoutSpaced src else ULspacedMap src so)

/-- `loads`: parse and wrap in an `UnspacedList`. -/
def loads (s : List Char) : Option UL :=
  match parseScript s with
  | some (tree, _) => some (ULinit tree false)
  | none => none

/-- `dumps`: serialize the formatted (`spaced`) view. -/
def dumps (u : UL) : Option (List Char) :=
  dumpItems u.spaced

mutual

/-- Without `spaceout`, the `spaced` view built by `__init__` is
structurally identical to its source: strings are kept and each list
entry is replaced by its sublist's `spaced` view, which is itself
identical to the entry. -/
theorem ULspacedMap_id (xs : List SV) : ULspacedMap xs false = xs := by
  cases xs with
  | nil => rfl
  | cons e rest =>
      rw [ULspacedMap, ULentS_id e, ULspacedMap_id rest]

theorem ULentS_id (e : SV) : ULentS e false = e := by
  cases e with
  | str cs => rfl
  | obj n => rfl
  | lst e' =>
      rw [ULentS, ULspacedMap_id e']
      simp

end

theorem ULinit_spaced_id (src : List SV) : (ULinit src false).spaced = src := by
  rw [ULinit, UL.spaced]
  simp [ULspacedMap_id]

/-! ## Claim C1: round-trip identity -/

/-- C1 (amended): for every input within the model's character scope
(printable ASCII plus tab/newline/carriage return) that parses with no
character discarded by pyparsing's implicit whitespace skips (the `0`
loss component), serializing the loaded tree reproduces the input byte
for byte.  Two such skips are reachable, and each makes the loss
nonzero and the round-trip fail (see the counterexample): the
script-level `And` pre-parses at the start of the document, silently
dropping any document-leading whitespace; and the suppressed
`Literal("{")` silently skips the whitespace a generic block header
leaves unconsumed when its `Optional(space + location + space)`
backtracks after a location-match modifier. -/
theorem claim_C1_roundtrip (s : List Char) (u : UL) (tree : List SV)
    (hok : ∀ c ∈ s, okChar c = true)
    (hparse : parseScript s = some (tree, 0))
    (hload : loads s = some u) :
    dumps u = some s := by
  unfold loads at hload
  rw [hparse] at hload
  simp only [Option.some.injEq] at hload
  subst hload
  unfold dumps
  rw [ULinit_spaced_id]
  exact parseScript_sound hok hparse

/-- Witness for C1: the spec's first concrete scenario round-trips. -/
theorem claim_C1_roundtrip_witness :
    ∃ u, loads "server \x7b\n  listen 80;\n\x7d\n".data = some u ∧
      dumps u = some "server \x7b\n  listen 80;\n\x7d\n".data :=
  ⟨_, rfl, claim_C1_roundtrip _ _ _ (by decide) rfl rfl⟩

/-- Counterexample to C1 as stated, at both reachable skips:
`"location ~ {\n}\n"` is accepted by the parser (it is syntactically
valid input), but the whitespace between the modifier `~` and `{` is
implicitly skipped, and serialization yields `"location ~{\n}\n"`;
`" a;\n"` is likewise accepted, but the document-leading space is
skipped by the script-level pre-parse and serialization yields
`"a;\n"`. -/
theorem claim_C1_roundtrip_counterexample :
    (∃ u, loads "location ~ \x7b\n\x7d\n".data = some u ∧
      dumps u = some "location ~\x7b\n\x7d\n".data ∧
      dumps u ≠ some "location ~ \x7b\n\x7d\n".data) ∧
    (∃ u, loads " a;\n".data = some u ∧
      dumps u = some "a;\n".data ∧
      dumps u ≠ some " a;\n".data) :=
  ⟨⟨_, rfl, rfl, by decide⟩, ⟨_, rfl, rfl, by decide⟩⟩

/-! ## Claim C3: directives with no value -/

/-- Counterexample to C3 as stated: parsing `"break;"` records the value
of the directive as the *empty string* (the third token of the node),
not as a distinguished no-value marker — the `Optional(space + value,
default=None)` never uses its `None` default because the value regex
matches the empty string. -/
theorem claim_C3_value_counterexample :
    parseScript "break;".data =
      some ([SV.lst [.str ['b', 'r', 'e', 'a', 'k'], .str []]], 0) := rfl

/-- C3 (amended): the raw parse of a value-less directive records the
value as the empty string (never `None`); the `UnspacedList` logical
view then elides that empty string as whitespace-like, so the loaded
logical node carries no value element at all, while the formatted view
keeps the empty string. -/
theorem claim_C3_value_empty_string :
    parseScript "break;".data =
      some ([SV.lst [.str ['b', 'r', 'e', 'a', 'k'], .str []]], 0) ∧
    loads "break;".data =
      some (UL.mk [.sub (UL.mk [.str ['b', 'r', 'e', 'a', 'k']]
                              [.str ['b', 'r', 'e', 'a', 'k'], .str []])]
                  [.lst [.str ['b', 'r', 'e', 'a', 'k'], .str []]]) :=
  ⟨rfl, rfl⟩

/-! ## Claim C9: modifier precedence -/

/-- C9: the modifier alternation tries `~*` before `~` (`MatchFirst`
order `= | ~* | ~ | ^~`), so any text starting with `~*` is classified as
the two-character modifier; concretely, `"location ~* \.php$ {\n}\n"`
parses with the single header token `~*` followed by the location token
`\.php$` (never `~` followed by a location starting with `*`). -/
theorem claim_C9_modifier_precedence :
    (∀ rest : List Char, modTok ('~' :: '*' :: rest) = some (['~', '*'], rest)) ∧
    parseScript "location ~* \\.php$ \x7b\n\x7d\n".data =
      some ([.lst [.lst [.str "location".data, .str [' '], .str ['~', '*'],
                         .str [' '], .str "\\.php$".data, .str [' ']],
                   .lst [.str ['\n']]],
             .str ['\n']], 0) :=
  ⟨fun _ => rfl, rfl⟩

/-! ## Claim C8: quoted-value opacity -/

theorem takeWhile_append_all {p : Char → Bool} {l₁ : List Char} (l₂ : List Char)
    (h : l₁.all p = true) : (l₁ ++ l₂).takeWhile p = l₁ ++ l₂.takeWhile p := by
  induction l₁ with
  | nil => rfl
  | cons c t ih =>
      simp only [List.all_cons, Bool.and_eq_true] at h
      simp [List.takeWhile_cons, h.1, ih h.2]

theorem filter_enumFrom_nil {q : Char} (l : List Char) (n : Nat)
    (h : l.all (fun x => !(x = q)) = true) :
    (l.enumFrom n).filter (fun p => p.2 = q) = [] := by
  induction l generalizing n with
  | nil => rfl
  | cons c t ih =>
      simp only [List.all_cons, Bool.and_eq_true] at h
      have hc : (decide (c = q)) = false := by
        simpa using h.1
      simp [List.enumFrom_cons, List.filter_cons, hc, ih (n + 1) h.2]

theorem filter_enumFrom_single {q : Char} (c restLine : List Char) (n : Nat)
    (hc : c.all (fun x => !(x = q)) = true)
    (hr : restLine.all (fun x => !(x = q)) = true) :
    ((c ++ q :: restLine).enumFrom n).filter (fun p => p.2 = q) =
      [(n + c.length, q)] := by
  induction c generalizing n with
  | nil =>
      simp only [List.nil_append, List.enumFrom_cons, List.filter_cons]
      simp [filter_enumFrom_nil restLine (n + 1) hr]
  | cons a t ih =>
      simp only [List.all_cons, Bool.and_eq_true] at hc
      have ha : (decide (a = q)) = false := by simpa using hc.1
      simp only [List.cons_append, List.enumFrom_cons, List.filter_cons, ha]
      rw [ih (n + 1) hc.2]
      simp
      omega

theorem qlen_cons (q a : Char) (t : List Char) :
    qlen q (a :: t) =
      if a = q then
        match ((t.takeWhile (fun x => decide (x ≠ '\n'))).enum.filter
            (fun p => decide (p.2 = q))).getLast? with
        | some (k, _) => k + 2
        | none => 0
      else 0 := rfl

/-- The double- (or single-) quote group of the `value` regex consumes
exactly through the closing quote when the content has no quote or
newline and no further quote occurs on the line. -/
theorem qlen_quoted {q : Char} (c rest : List Char) (hq : q ≠ '\n')
    (hcq : c.all (fun x => !(x = q)) = true)
    (hcn : c.all (fun x => !(x = '\n')) = true)
    (hr : (rest.takeWhile (· ≠ '\n')).all (fun x => !(x = q)) = true) :
    qlen q (q :: (c ++ q :: rest)) = c.length + 2 := by
  rw [qlen_cons, if_pos rfl]
  have hline : (c ++ q :: rest).takeWhile (fun x => decide (x ≠ '\n')) =
      c ++ q :: rest.takeWhile (fun x => decide (x ≠ '\n')) := by
    rw [takeWhile_append_all _ (by simpa using hcn)]
    simp [List.takeWhile_cons, hq]
  rw [hline, show (c ++ q :: rest.takeWhile (fun x => decide (x ≠ '\n'))).enum =
      (c ++ q :: rest.takeWhile (fun x => decide (x ≠ '\n'))).enumFrom 0 from rfl,
    filter_enumFrom_single c _ 0 hcq hr]
  simp

/-- C8: a value beginning with a quoted span absorbs the whole span —
including any `;`, `}`, `{` or `,` inside the quotes — into the single
value token (the token keeps at least the span's length, and token plus
remainder reassemble the input, so the stop character that ends the token
lies beyond the quotes); concretely, `a "b;}c" ;` parses as one directive
whose value token is `"b;}c" `. -/
theorem claim_C8_quoted_opacity :
    (∀ (q : Char) (c rest : List Char), (q = '"' ∨ q = '\'') →
      c.all (fun x => !(x = q)) = true →
      c.all (fun x => !(x = '\n')) = true →
      (rest.takeWhile (· ≠ '\n')).all (fun x => !(x = q)) = true →
      c.length + 2 ≤ (valueTok (q :: (c ++ q :: rest))).1.length ∧
      (valueTok (q :: (c ++ q :: rest))).1 ++ (valueTok (q :: (c ++ q :: rest))).2 =
        q :: (c ++ q :: rest)) ∧
    parseScript "a \"b;\x7dc\" ;\n".data =
      some ([.lst [.str ['a'], .str [' '], .str "\"b;\x7dc\" ".data], .str ['\n']], 0) := by
  constructor
  · intro q c rest hq hcq hcn hr
    have hqn : q ≠ '\n' := by rcases hq with h | h <;> subst h <;> decide
    have hstep : c.length + 2 ≤ stepLen (q :: (c ++ q :: rest)) := by
      unfold stepLen
      rcases hq with h | h
      · subst h
        rw [qlen_quoted c rest hqn hcq hcn hr]
        omega
      · subst h
        have hdq : qlen '"' ('\'' :: (c ++ '\'' :: rest)) = 0 := by
          rw [qlen_cons, if_neg (by decide)]
        rw [hdq]
        simp only [List.drop_zero, Nat.zero_add]
        rw [qlen_quoted c rest hqn hcq hcn hr]
        omega
    refine ⟨?_, valueTok_append _⟩
    unfold valueTok
    rw [valueTokF]
    simp only []
    rw [if_neg (by omega)]
    cases hv : valueTokF (q :: (c ++ q :: rest)).length
        ((q :: (c ++ q :: rest)).drop (stepLen (q :: (c ++ q :: rest)))) with
    | mk v' r' =>
        simp only [List.length_append, List.length_take, List.length_cons]
        omega
  · rfl

theorem claim_C8_quoted_opacity_witness :
    "b;\x7dc".data.length + 2 ≤
      (valueTok ('"' :: ("b;\x7dc".data ++ '"' :: " x".data))).1.length ∧
    (valueTok ('"' :: ("b;\x7dc".data ++ '"' :: " x".data))).1 ++
      (valueTok ('"' :: ("b;\x7dc".data ++ '"' :: " x".data))).2 =
      '"' :: ("b;\x7dc".data ++ '"' :: " x".data) :=
  claim_C8_quoted_opacity.1 '"' "b;\x7dc".data " x".data (Or.inl rfl)
    (by decide) (by decide) (by decide)

/-! ## Mutation operations on the dual-view model

The `UnspacedList` methods `insert`, `append`, `extend`, `__setitem__`
and `__delitem__`, together with `_coerce` and `_spaces_before`.  A
method returns the error it raises (if any) together with the state of
the object's two views after the call — Python mutates in place, and a
raise can leave a partial mutation behind, which the returned state
records faithfully. -/

/-- The Python error classes observable from the modelled methods. -/
inductive PyErr where
  | index : PyErr
  | type : PyErr
deriving DecidableEq

/-- An inbound argument to a mutation method: a raw Python value
(string, opaque non-list object, or plain list) or an existing
`UnspacedList`. -/
inductive Inb where
  | sv : SV → Inb
  | ul : UL → Inb

/-- `_coerce`: a non-list inbound is passed through unchanged (there is
no type check); a plain list is wrapped by the constructor; an
`UnspacedList` is used as is — its `spaced` attribute is taken directly,
without cloning. -/
def coerce : Inb → Bool → LEnt × SV
  | .sv (.str cs), _ => (.str cs, .str cs)
  | .sv (.obj n), _ => (.obj n, .obj n)
  | .sv (.lst xs), so =>
      let u := ULinit xs so
      (.sub u, .lst u.spaced)
  | .ul u, _ => (.sub u, .lst u.spaced)

/-- `_spaces_before`: walk the `spaced` view from the left, counting
whitespace entries and decrementing the logical index at each
non-whitespace entry, until the index reaches `-1`; reading past the end
of the `spaced` list raises `IndexError` (`none`). -/
def spacesBeforeAux : List SV → Int → Nat → Option Nat
  | sp, idx, acc =>
    if idx = -1 then some acc
    else
      match sp with
      | [] => none
      | e :: rest =>
          if spaceySV e then spacesBeforeAux rest idx (acc + 1)
          else spacesBeforeAux rest (idx - 1) acc

/-- Python's index normalisation: a negative index counts from the end. -/
def pyNorm (len : Nat) (i : Int) : Int :=
  if i < 0 then i + len else i

/-- The clamped position of `list.insert`. -/
def pyInsertIdx (len : Nat) (i : Int) : Nat :=
  if pyNorm len i < 0 then 0 else min (pyNorm len i).toNat len

/-- `list.insert`: the (normalised) position is clamped into
`[0, len]`; the call never fails. -/
def pyInsert {α : Type} (l : List α) (i : Int) (x : α) : List α :=
  l.take (pyInsertIdx l.length i) ++ x :: l.drop (pyInsertIdx l.length i)

/-- `list.__setitem__` with an integer index: out of range raises
`IndexError` (`none`). -/
def pySet {α : Type} (l : List α) (i : Int) (x : α) : Option (List α) :=
  if 0 ≤ pyNorm l.length i ∧ pyNorm l.length i < l.length then
    some (l.take (pyNorm l.length i).toNat ++
      x :: l.drop ((pyNorm l.length i).toNat + 1))
  else none

/-- `list.__delitem__` with an integer index. -/
def pyDel {α : Type} (l : List α) (i : Int) : Option (List α) :=
  if 0 ≤ pyNorm l.length i ∧ pyNorm l.length i < l.length then
    some (l.take (pyNorm l.length i).toNat ++ l.drop ((pyNorm l.length i).toNat + 1))
  else none

/-- `insert(self, i, x, spaceout)`: translate the logical index through
`_spaces_before` (which may raise `IndexError`, leaving the object
untouched), then insert into both views; the `list.insert` calls
themselves never fail. -/
def ULinsert (u : UL) (i : Int) (x : Inb) (so : Bool) : Option PyErr × UL :=
  match spacesBeforeAux u.spaced i 0 with
  | none => (some .index, u)
  | some sp =>
      (none, .mk (pyInsert u.logical i (coerce x so).1)
                 (pyInsert u.spaced (i + sp) (coerce x so).2))

/-- `append(self, x, spaceout)`: append to both views; never fails. -/
def ULappend (u : UL) (x : Inb) (so : Bool) : UL :=
  .mk (u.logical ++ [(coerce x so).1]) (u.spaced ++ [(coerce x so).2])

/-- `extend(self, x, spaceout)`: `self.spaced.extend(spaced_item)` then
`list.extend(self, item)`.  A string argument is iterated character by
character; an `UnspacedList` (or coerced list) contributes its `spaced`
entries to the formatted view and its logical entries to the logical
view — without cloning an `UnspacedList` operand; a non-iterable
argument raises `TypeError` before anything is mutated. -/
def ULextend (u : UL) (x : Inb) (so : Bool) : Option PyErr × UL :=
  match x with
  | .sv (.str cs) =>
      (none, .mk (u.logical ++ cs.map (fun ch => .str [ch]))
                 (u.spaced ++ cs.map (fun ch => .str [ch])))
  | .sv (.obj _) => (some .type, u)
  | .sv (.lst xs) =>
      let v := ULinit xs so
      (none, .mk (u.logical ++ v.logical) (u.spaced ++ v.spaced))
  | .ul v => (none, .mk (u.logical ++ v.logical) (u.spaced ++ v.spaced))

/-- `__setitem__`: the index translation and the `spaced` assignment run
before the logical assignment, so a failure of the latter leaves the
`spaced` view already mutated. -/
def ULsetitem (u : UL) (i : Int) (x : Inb) : Option PyErr × UL :=
  match spacesBeforeAux u.spaced i 0 with
  | none => (some .index, u)
  | some sp =>
      match pySet u.spaced (i + sp) (coerce x false).2 with
      | none => (some .index, u)
      | some sp' =>
          match pySet u.logical i (coerce x false).1 with
          | none => (some .index, .mk u.logical sp')
          | some lg' => (none, .mk lg' sp')

/-- `__delitem__`: same order of operations as `__setitem__`. -/
def ULdelitem (u : UL) (i : Int) : Option PyErr × UL :=
  match spacesBeforeAux u.spaced i 0 with
  | none => (some .index, u)
  | some sp =>
      match pyDel u.spaced (i + sp) with
      | none => (some .index, u)
      | some sp' =>
          match pyDel u.logical i with
          | none => (some .index, .mk u.logical sp')
          | some lg' => (none, .mk lg' sp')

/-- The raw (`spaced`-side) value a logical entry stands for. -/
def rawOfL : LEnt → SV
  | .str cs => .str cs
  | .obj n => .obj n
  | .sub v => .lst v.spaced

/-- Whitespace-only leaves of a formatted level. -/
def wsLeafCount (sp : List SV) : Nat :=
  (sp.filter (fun e => spaceySV e)).length

/-- The two views of one level are aligned when the non-whitespace
entries of the formatted view are exactly the raw values of the logical
entries, in order. -/
def AlignedViews (sp : List SV) (lg : List LEnt) : Prop :=
  sp.filter (fun e => !spaceySV e) = lg.map rawOfL

def Aligned (u : UL) : Prop := AlignedViews u.spaced u.logical

instance (sp : List SV) (lg : List LEnt) : Decidable (AlignedViews sp lg) :=
  inferInstanceAs (Decidable (sp.filter (fun e => !spaceySV e) = lg.map rawOfL))

instance (u : UL) : Decidable (Aligned u) :=
  inferInstanceAs (Decidable (AlignedViews u.spaced u.logical))

/-- Position in a formatted level of its `i`-th non-whitespace entry. -/
def nthNonSpaceyPos : List SV → Nat → Option Nat
  | [], _ => none
  | e :: rest, i =>
      if spaceySV e then (nthNonSpaceyPos rest i).map (· + 1)
      else
        match i with
        | 0 => some 0
        | i' + 1 => (nthNonSpaceyPos rest i').map (· + 1)

/-- The sublist stored at logical index `i`. -/
def ULsubAt (u : UL) (i : Nat) : Option UL :=
  match u.logical.get? i with
  | some (.sub v) => some v
  | _ => none

/-- In Python, a sublist reached through the logical view is the same
object as the one whose `spaced` list sits inside the parent's `spaced`
view (`self.spaced[i] = sublist.spaced` in `__init__`), so a mutation of
the sublist is seen by the parent through both views.  `withSub` rebuilds
the parent after such a mutation: the new sublist at logical position
`li` and its `spaced` view at formatted position `si`. -/
def withSub (u : UL) (li si : Nat) (v : UL) : UL :=
  .mk (u.logical.set li (.sub v)) (u.spaced.set si (.lst v.spaced))

/-! ### A small heap model for object identity

`extend` and `__add__` take their `UnspacedList` operand as is
(`_coerce` returns the object itself when it already has a `spaced`
attribute), so the result shares sub-structure with the operand.  To
state what that sharing does, the relevant operations are replayed over
an explicit heap: an address is an index into a list of live objects, a
Python list value is a reference, and `copy.deepcopy` (used by
`__init__` on the source and by `__add__` on the left operand) allocates
fresh addresses, while `extend` copies references.  The model covers
plain lists and `UnspacedList`s of strings, opaque objects and nested
lists — exactly what the modelled runs touch; `deepcopy` memoisation is
irrelevant for the tree-shaped values used here. -/

inductive PyVal where
  | str : List Char → PyVal
  | obj : Int → PyVal
  | ref : Nat → PyVal
deriving DecidableEq

/-- A heap object: a plain Python list, or an `UnspacedList` (its own
list contents — the logical view — plus the address of the plain list
its `spaced` attribute points to). -/
inductive HObj where
  | plain : List PyVal → HObj
  | ulist : List PyVal → Nat → HObj
deriving DecidableEq

/-- `spacey` on a heap value. -/
def pvSpacey : PyVal → Bool
  | .str cs => cs.all isPySpace
  | _ => false

/-- Is the value the one-character string `#`? -/
def pvHash : PyVal → Bool
  | .str cs => cs = ['#']
  | _ => false

/-- Is the value a Python `str`? -/
def pvIsStr : PyVal → Bool
  | .str _ => true
  | _ => false

/-- The `spaceout` interleaving on already-copied values. -/
def spaceoutVals (xs : List PyVal) : List PyVal :=
  .str ['\n'] :: (xs.take 1 ++ (xs.drop 1).flatMap (fun y => [.str [' '], y]))

mutual

/-- `copy.deepcopy` of one value: strings and opaque objects are
immutable, a reference to a plain list is copied element-wise into a
fresh object. -/
def deepcopyVal : Nat → List HObj → PyVal → Option (PyVal × List HObj)
  | 0, _, _ => none
  | _ + 1, h, .str cs => some (.str cs, h)
  | _ + 1, h, .obj n => some (.obj n, h)
  | fuel + 1, h, .ref a =>
      match h.get? a with
      | some (.plain vs) =>
          match deepcopyVals fuel h vs with
          | some (vs', h') => some (.ref h'.length, h' ++ [.plain vs'])
          | none => none
      | _ => none

def deepcopyVals : Nat → List HObj → List PyVal → Option (List PyVal × List HObj)
  | 0, _, _ => none
  | _ + 1, h, [] => some ([], h)
  | fuel + 1, h, v :: vs =>
      match deepcopyVal fuel h v with
      | some (v', h') =>
          match deepcopyVals fuel h' vs with
          | some (vs', h'') => some (v' :: vs', h'')
          | none => none
      | none => none

end

/-- Replace element `i` of the plain list stored at address `sa`. -/
def patchAt (h : List HObj) (sa i : Nat) (v : PyVal) : Option (List HObj) :=
  match h.get? sa with
  | some (.plain vs) =>
      if i < vs.length then some (h.set sa (.plain (vs.set i v))) else none
  | _ => none

mutual

/-- `UnspacedList.__init__` over the heap: deep-copy the source into a
fresh `spaced` plain list (interleaving whitespace in `spaceout` mode
when every entry is a string), then walk the source: a whitespace string
is elided from the logical view (unless a `#` entry occurred earlier at
this level), a list entry is rebuilt as a fresh sub-`UnspacedList` whose
`spaced` object is installed into the parent's `spaced` list by
reference (`self.spaced[i] = sublist.spaced`) — and dropped from the
logical view when its logical view is empty while its `spaced` list is
not.  Returns the address of the new `UnspacedList`. -/
def heapInitUL : Nat → List HObj → List PyVal → Bool → Option (Nat × List HObj)
  | 0, _, _, _ => none
  | fuel + 1, h, src, so =>
      match deepcopyVals fuel h src with
      | none => none
      | some (sv, h₁) =>
          let sv := if so && sv.all pvIsStr then spaceoutVals sv else sv
          let sa := h₁.length
          match heapInitLoop fuel (h₁ ++ [HObj.plain sv]) src 0 sa false so with
          | none => none
          | some (lg, h₃) => some (h₃.length, h₃ ++ [HObj.ulist lg sa])

/-- The `__init__` loop, one source entry at a time (index `i`, `spaced`
object at `sa`, `#`-seen flag `sh`). -/
def heapInitLoop : Nat → List HObj → List PyVal → Nat → Nat → Bool → Bool →
    Option (List PyVal × List HObj)
  | 0, _, _, _, _, _, _ => none
  | _ + 1, h, [], _, _, _, _ => some ([], h)
  | fuel + 1, h, e :: rest, i, sa, sh, so =>
      match e with
      | .ref a =>
          match (match h.get? a with
                 | some (.plain vs) => some vs
                 | some (.ulist lg _) => some lg
                 | none => none) with
          | none => none
          | some vs =>
              match heapInitUL fuel h vs so with
              | none => none
              | some (ua, h₁) =>
                  match h₁.get? ua with
                  | some (.ulist lg₂ sa₂) =>
                      match patchAt h₁ sa i (.ref sa₂) with
                      | none => none
                      | some h₂ =>
                          match heapInitLoop fuel h₂ rest (i + 1) sa sh so with
                          | none => none
                          | some (lgr, h₃) =>
                              let spEmpty :=
                                match h₁.get? sa₂ with
                                | some (.plain vs₂) => vs₂.isEmpty
                                | _ => false
                              some (if !lg₂.isEmpty || spEmpty
                                    then .ref ua :: lgr else lgr, h₃)
                  | _ => none
      | _ =>
          match heapInitLoop fuel h rest (i + 1) sa (sh || pvHash e) so with
          | none => none
          | some (lgr, h₃) =>
              some (if pvSpacey e && !sh then lgr else e :: lgr, h₃)

end

/-- `_coerce` over the heap: `(item, spaced_item)` plus the heap (a plain
list argument allocates a fresh `UnspacedList`). -/
def heapCoerce : Nat → List HObj → PyVal → Bool → Option (PyVal × PyVal × List HObj)
  | 0, _, _, _ => none
  | fuel + 1, h, v, so =>
      match v with
      | .str cs => some (.str cs, .str cs, h)
      | .obj n => some (.obj n, .obj n, h)
      | .ref a =>
          match h.get? a with
          | some (.plain vs) =>
              match heapInitUL fuel h vs so with
              | some (ua, h₁) =>
                  match h₁.get? ua with
                  | some (.ulist _ sa) => some (.ref ua, .ref sa, h₁)
                  | _ => none
              | none => none
          | some (.ulist _ sa) => some (.ref a, .ref sa, h)
          | none => none

/-- Python iteration of a value (`list.extend` iterates its argument): a
string yields its characters, a plain list its elements, an
`UnspacedList` its (logical) list contents; a non-iterable yields
`none` (`TypeError`). -/
def heapIter (h : List HObj) : PyVal → Option (List PyVal)
  | .str cs => some (cs.map (fun ch => .str [ch]))
  | .obj _ => none
  | .ref a =>
      match h.get? a with
      | some (.plain vs) => some vs
      | some (.ulist lg _) => some lg
      | none => none

/-- `extend` over the heap: coerce, extend the `spaced` plain list with
the `spaced_item`'s elements (references copied, objects shared), then
extend the logical contents with the `item`'s elements. -/
def heapExtend (fuel : Nat) (h : List HObj) (ua : Nat) (x : PyVal) (so : Bool) :
    Option (Option PyErr × List HObj) :=
  match h.get? ua with
  | some (.ulist lg sa) =>
      match heapCoerce fuel h x so with
      | none => none
      | some (item, sitem, h₁) =>
          match heapIter h₁ sitem with
          | none => some (some .type, h₁)
          | some svs =>
              match h₁.get? sa with
              | some (.plain vs) =>
                  let h₂ := h₁.set sa (.plain (vs ++ svs))
                  match heapIter h₂ item with
                  | none => some (some .type, h₂)
                  | some lvs => some (none, h₂.set ua (.ulist (lg ++ lvs) sa))
              | _ => none
  | _ => none

/-- `__deepcopy__`: `l = UnspacedList(self[:])` — a fresh build from the
logical entries — then `l.spaced = copy.deepcopy(self.spaced)`. -/
def heapDeepcopyUL (fuel : Nat) (h : List HObj) (ua : Nat) : Option (Nat × List HObj) :=
  match h.get? ua with
  | some (.ulist lg sa) =>
      match heapInitUL fuel h lg false with
      | none => none
      | some (la, h₁) =>
          match deepcopyVal fuel h₁ (.ref sa) with
          | some (.ref sa', h₂) =>
              match h₂.get? la with
              | some (.ulist lg' _) => some (la, h₂.set la (.ulist lg' sa'))
              | _ => none
          | _ => none
  | _ => none

/-- `__add__`: `l = copy.deepcopy(self); l.extend(other); return l`. -/
def heapAdd (fuel : Nat) (h : List HObj) (ua ub : Nat) : Option (Nat × List HObj) :=
  match heapDeepcopyUL fuel h ua with
  | none => none
  | some (ca, h₁) =>
      match heapExtend fuel h₁ ca (.ref ub) false with
      | some (none, h₂) => some (ca, h₂)
      | _ => none

/-- `_spaces_before` on heap values. -/
def heapSpacesAux : List PyVal → Int → Nat → Option Nat
  | sp, idx, acc =>
    if idx = -1 then some acc
    else
      match sp with
      | [] => none
      | e :: rest =>
          if pvSpacey e then heapSpacesAux rest idx (acc + 1)
          else heapSpacesAux rest (idx - 1) acc

/-- `__setitem__` over the heap (the logical write happens after the
`spaced` write, as in the source). -/
def heapSetitem (fuel : Nat) (h : List HObj) (ua : Nat) (i : Int) (x : PyVal) :
    Option (Option PyErr × List HObj) :=
  match h.get? ua with
  | some (.ulist lg sa) =>
      match heapCoerce fuel h x false with
      | none => none
      | some (item, sitem, h₁) =>
          match h₁.get? sa with
          | some (.plain vs) =>
              match heapSpacesAux vs i 0 with
              | none => some (some .index, h₁)
              | some k =>
                  match pySet vs (i + k) sitem with
                  | none => some (some .index, h₁)
                  | some vs' =>
                      let h₂ := h₁.set sa (.plain vs')
                      match pySet lg i item with
                      | none => some (some .index, h₂)
                      | some lg' => some (none, h₂.set ua (.ulist lg' sa))
          | _ => none
  | _ => none

/-- Read logical entry `i` of the `UnspacedList` at `ua`. -/
def heapGetitem (h : List HObj) (ua i : Nat) : Option PyVal :=
  match h.get? ua with
  | some (.ulist lg _) => lg.get? i
  | _ => none

/-! ### Lemmas about the index translation -/

theorem spacesBeforeAux_nil' (idx : Int) (acc : Nat) :
    spacesBeforeAux [] idx acc = if idx = -1 then some acc else none := rfl

theorem spacesBeforeAux_cons' (e : SV) (rest : List SV) (idx : Int) (acc : Nat) :
    spacesBeforeAux (e :: rest) idx acc =
      if idx = -1 then some acc
      else if spaceySV e then spacesBeforeAux rest idx (acc + 1)
      else spacesBeforeAux rest (idx - 1) acc := rfl

theorem nthNonSpaceyPos_cons_zero (e : SV) (rest : List SV) :
    nthNonSpaceyPos (e :: rest) 0 =
      if spaceySV e then (nthNonSpaceyPos rest 0).map (· + 1) else some 0 := rfl

theorem nthNonSpaceyPos_cons_succ (e : SV) (rest : List SV) (i' : Nat) :
    nthNonSpaceyPos (e :: rest) (i' + 1) =
      if spaceySV e then (nthNonSpaceyPos rest (i' + 1)).map (· + 1)
      else (nthNonSpaceyPos rest i').map (· + 1) := rfl

theorem spacesBeforeAux_neg_one (sp : List SV) (acc : Nat) :
    spacesBeforeAux sp (-1) acc = some acc := by
  cases sp with
  | nil => rw [spacesBeforeAux_nil', if_pos rfl]
  | cons e rest => rw [spacesBeforeAux_cons', if_pos rfl]

theorem nthNonSpaceyPos_ge (sp : List SV) : ∀ (i p : Nat),
    nthNonSpaceyPos sp i = some p → i ≤ p := by
  induction sp with
  | nil => intro i p h; simp [nthNonSpaceyPos] at h
  | cons e rest ih =>
      intro i p h
      cases i with
      | zero => omega
      | succ i' =>
          rw [nthNonSpaceyPos_cons_succ] at h
          by_cases hs : spaceySV e
          · rw [if_pos hs] at h
            cases hp : nthNonSpaceyPos rest (i' + 1) with
            | none => rw [hp] at h; simp at h
            | some p' =>
                rw [hp] at h
                simp only [Option.map_some', Option.some.injEq] at h
                have := ih (i' + 1) p' hp
                omega
          · rw [if_neg hs] at h
            cases hp : nthNonSpaceyPos rest i' with
            | none => rw [hp] at h; simp at h
            | some p' =>
                rw [hp] at h
                simp only [Option.map_some', Option.some.injEq] at h
                have := ih i' p' hp
                omega

theorem spacesBeforeAux_spec (sp : List SV) : ∀ (i acc : Nat),
    spacesBeforeAux sp (i : Int) acc =
      (nthNonSpaceyPos sp i).map (fun p => acc + (p - i)) := by
  induction sp with
  | nil =>
      intro i acc
      rw [spacesBeforeAux_nil', if_neg (by omega)]
      rfl
  | cons e rest ih =>
      intro i acc
      rw [spacesBeforeAux_cons', if_neg (by omega)]
      cases i with
      | zero =>
          rw [nthNonSpaceyPos_cons_zero]
          by_cases hs : spaceySV e
          · rw [if_pos hs, if_pos hs, ih 0 (acc + 1)]
            cases hp : nthNonSpaceyPos rest 0 with
            | none => rfl
            | some p =>
                simp only [Option.map_some', Option.some.injEq]
                omega
          · rw [if_neg hs, if_neg hs,
                show ((0 : Nat) : Int) - 1 = -1 by omega, spacesBeforeAux_neg_one]
            simp
      | succ i' =>
          rw [nthNonSpaceyPos_cons_succ]
          by_cases hs : spaceySV e
          · rw [if_pos hs, if_pos hs, ih (i' + 1) (acc + 1)]
            cases hp : nthNonSpaceyPos rest (i' + 1) with
            | none => rfl
            | some p =>
                have hge := nthNonSpaceyPos_ge rest (i' + 1) p hp
                simp only [Option.map_some', Option.some.injEq]
                omega
          · rw [if_neg hs, if_neg hs,
                show ((i' + 1 : Nat) : Int) - 1 = (i' : Int) by omega, ih i' acc]
            cases hp : nthNonSpaceyPos rest i' with
            | none => rfl
            | some p =>
                simp only [Option.map_some', Option.some.injEq]
                omega

theorem nthNonSpaceyPos_none (sp : List SV) : ∀ (i : Nat),
    (sp.filter (fun e => !spaceySV e)).length ≤ i → nthNonSpaceyPos sp i = none := by
  induction sp with
  | nil => intro i _; rfl
  | cons e rest ih =>
      intro i h
      rw [List.filter_cons] at h
      by_cases hs : spaceySV e
      · simp only [hs, Bool.not_true, Bool.false_eq_true, if_false] at h
        cases i with
        | zero =>
            rw [nthNonSpaceyPos_cons_zero, if_pos hs, ih 0 h]
            rfl
        | succ i' =>
            rw [nthNonSpaceyPos_cons_succ, if_pos hs, ih (i' + 1) h]
            rfl
      · have hs' : spaceySV e = false := by simpa using hs
        simp only [hs', Bool.not_false, if_true, List.length_cons] at h
        cases i with
        | zero => omega
        | succ i' =>
            rw [nthNonSpaceyPos_cons_succ, if_neg hs, ih i' (by omega)]
            rfl

theorem nthNonSpaceyPos_split (sp : List SV) : ∀ (i p : Nat),
    nthNonSpaceyPos sp i = some p →
    p < sp.length ∧
    ∃ e, sp.drop p = e :: sp.drop (p + 1) ∧ spaceySV e = false ∧
      ((sp.take p).filter (fun x => !spaceySV x)).length = i := by
  induction sp with
  | nil => intro i p h; simp [nthNonSpaceyPos] at h
  | cons a rest ih =>
      intro i p h
      cases i with
      | zero =>
          rw [nthNonSpaceyPos_cons_zero] at h
          by_cases hs : spaceySV a
          · rw [if_pos hs] at h
            cases hp : nthNonSpaceyPos rest 0 with
            | none => rw [hp] at h; simp at h
            | some p' =>
                rw [hp] at h
                simp only [Option.map_some', Option.some.injEq] at h
                obtain ⟨hlen, e, hdrop, hens, htake⟩ := ih 0 p' hp
                subst h
                refine ⟨by simpa using hlen, e, ?_, hens, ?_⟩
                · simpa using hdrop
                · rw [List.take_succ_cons, List.filter_cons]
                  simp [hs, htake]
          · rw [if_neg hs] at h
            simp only [Option.some.injEq] at h
            subst h
            exact ⟨by simp, a, by simp, by simpa using hs, by simp⟩
      | succ i' =>
          rw [nthNonSpaceyPos_cons_succ] at h
          by_cases hs : spaceySV a
          · rw [if_pos hs] at h
            cases hp : nthNonSpaceyPos rest (i' + 1) with
            | none => rw [hp] at h; simp at h
            | some p' =>
                rw [hp] at h
                simp only [Option.map_some', Option.some.injEq] at h
                obtain ⟨hlen, e, hdrop, hens, htake⟩ := ih (i' + 1) p' hp
                subst h
                refine ⟨by simpa using hlen, e, ?_, hens, ?_⟩
                · simpa using hdrop
                · rw [List.take_succ_cons, List.filter_cons]
                  simp [hs, htake]
          · rw [if_neg hs] at h
            cases hp : nthNonSpaceyPos rest i' with
            | none => rw [hp] at h; simp at h
            | some p' =>
                rw [hp] at h
                simp only [Option.map_some', Option.some.injEq] at h
                obtain ⟨hlen, e, hdrop, hens, htake⟩ := ih i' p' hp
                subst h
                refine ⟨by simpa using hlen, e, ?_, hens, ?_⟩
                · simpa using hdrop
                · rw [List.take_succ_cons, List.filter_cons]
                  simp [hs, htake]

theorem length_filter_spacey (sp : List SV) :
    (sp.filter (fun e => !spaceySV e)).length +
      (sp.filter (fun e => spaceySV e)).length = sp.length := by
  induction sp with
  | nil => rfl
  | cons e rest ih =>
      rw [List.filter_cons, List.filter_cons]
      cases hs : spaceySV e <;> simp [hs] <;> omega

theorem coerce_raw (x : Inb) (so : Bool) :
    rawOfL (coerce x so).1 = (coerce x so).2 := by
  cases x with
  | sv s => cases s <;> rfl
  | ul v => rfl

theorem pyNorm_nat (len : Nat) (n : Nat) : pyNorm len (n : Int) = n := by
  unfold pyNorm
  rw [if_neg (by omega)]

theorem pyInsert_nat {α : Type} (l : List α) (n : Nat) (x : α) (h : n ≤ l.length) :
    pyInsert l (n : Int) x = l.take n ++ x :: l.drop n := by
  unfold pyInsert pyInsertIdx
  rw [pyNorm_nat, if_neg (by omega)]
  have ht : ((n : Int)).toNat = n := by omega
  rw [ht, min_eq_left h]

theorem pySet_nat {α : Type} (l : List α) (n : Nat) (x : α) (h : n < l.length) :
    pySet l (n : Int) x = some (l.take n ++ x :: l.drop (n + 1)) := by
  unfold pySet
  rw [pyNorm_nat, if_pos ⟨by omega, by omega⟩]
  have ht : ((n : Int)).toNat = n := by omega
  rw [ht]

theorem pyDel_nat {α : Type} (l : List α) (n : Nat) (h : n < l.length) :
    pyDel l (n : Int) = some (l.take n ++ l.drop (n + 1)) := by
  unfold pyDel
  rw [pyNorm_nat, if_pos ⟨by omega, by omega⟩]
  have ht : ((n : Int)).toNat = n := by omega
  rw [ht]

/-- Decomposition of an aligned pair of views around the `i`-th logical
entry (sitting at formatted position `p`). -/
theorem AlignedViews_split {sp : List SV} {lg : List LEnt} {i p : Nat}
    (hal : AlignedViews sp lg) (hp : nthNonSpaceyPos sp i = some p) :
    ∃ e,
      spaceySV e = false ∧
      sp.drop p = e :: sp.drop (p + 1) ∧
      p < sp.length ∧ i < lg.length ∧
      (sp.take p).filter (fun x => !spaceySV x) = (lg.map rawOfL).take i ∧
      (sp.drop (p + 1)).filter (fun x => !spaceySV x) =
        (lg.map rawOfL).drop (i + 1) ∧
      (lg.map rawOfL).drop i = e :: (lg.map rawOfL).drop (i + 1) := by
  obtain ⟨hplen, e, hdrop, hens, htake⟩ := nthNonSpaceyPos_split sp i p hp
  have hsp : sp = sp.take p ++ e :: sp.drop (p + 1) := by
    conv_lhs => rw [← List.take_append_drop p sp]
    rw [hdrop]
  have hfil : lg.map rawOfL =
      (sp.take p).filter (fun x => !spaceySV x) ++
        e :: (sp.drop (p + 1)).filter (fun x => !spaceySV x) := by
    rw [← hal]
    conv_lhs => rw [hsp]
    rw [List.filter_append, List.filter_cons]
    simp [hens]
  have hlen : i < lg.length := by
    have hc := congrArg List.length hfil
    simp only [List.length_map, List.length_append, List.length_cons, htake] at hc
    omega
  have htk : (lg.map rawOfL).take i = (sp.take p).filter (fun x => !spaceySV x) := by
    rw [hfil]
    exact List.take_left' htake
  have hdp : (lg.map rawOfL).drop i =
      e :: (sp.drop (p + 1)).filter (fun x => !spaceySV x) := by
    rw [hfil]
    exact List.drop_left' htake
  have hdp1 : (lg.map rawOfL).drop (i + 1) =
      (sp.drop (p + 1)).filter (fun x => !spaceySV x) := by
    rw [hfil, show (sp.take p).filter (fun x => !spaceySV x) ++
        e :: (sp.drop (p + 1)).filter (fun x => !spaceySV x) =
        ((sp.take p).filter (fun x => !spaceySV x) ++ [e]) ++
        (sp.drop (p + 1)).filter (fun x => !spaceySV x) by simp]
    exact List.drop_left' (by simp [htake])
  exact ⟨e, hens, hdrop, hplen, hlen, htk.symm, hdp1.symm, by rw [hdp, hdp1]⟩

theorem ULappend_aligned {u : UL} (x : Inb) (so : Bool) (hal : Aligned u)
    (hx : spaceySV (coerce x so).2 = false) : Aligned (ULappend u x so) := by
  unfold ULappend Aligned AlignedViews
  unfold Aligned AlignedViews at hal
  rw [UL.spaced, UL.logical, List.filter_append, List.filter_cons]
  simp only [hx, Bool.not_false, if_pos, List.filter_nil, List.map_append,
    List.map_cons, List.map_nil, hal, coerce_raw]

theorem ULinsert_aligned {u : UL} {i : Int} {x : Inb} {so : Bool} {u' : UL}
    (hal : Aligned u) (hi : 0 ≤ i)
    (hx : spaceySV (coerce x so).2 = false)
    (h : ULinsert u i x so = (none, u')) : Aligned u' := by
  obtain ⟨lg, sp⟩ := u
  have hal' : AlignedViews sp lg := hal
  rw [show i = ((i.toNat : Nat) : Int) by omega] at h
  unfold ULinsert at h
  rw [show (UL.mk lg sp).spaced = sp from rfl,
      show (UL.mk lg sp).logical = lg from rfl, spacesBeforeAux_spec] at h
  cases hp : nthNonSpaceyPos sp i.toNat with
  | none => rw [hp] at h; simp at h
  | some p =>
      rw [hp, Option.map_some'] at h
      obtain ⟨e, hens, hdrop, hplen, hilt, htakeEq, hdropEq, hdropEq'⟩ :=
        AlignedViews_split hal' hp
      have hge := nthNonSpaceyPos_ge sp i.toNat p hp
      have hred : (none, UL.mk (pyInsert lg ((i.toNat : Nat) : Int) (coerce x so).1)
          (pyInsert sp (((i.toNat : Nat) : Int) + ((0 + (p - i.toNat) : Nat) : Int))
            (coerce x so).2)) = (none, u') := h
      rw [show (((i.toNat : Nat) : Int) + ((0 + (p - i.toNat) : Nat) : Int)) =
            ((p : Nat) : Int) by omega,
          pyInsert_nat sp p _ (by omega),
          pyInsert_nat lg i.toNat _ (by omega),
          Prod.mk.injEq] at hred
      obtain ⟨-, hu⟩ := hred
      subst hu
      show AlignedViews (sp.take p ++ (coerce x so).2 :: sp.drop p)
        (lg.take i.toNat ++ (coerce x so).1 :: lg.drop i.toNat)
      unfold AlignedViews
      rw [List.filter_append, List.filter_cons]
      simp only [hx, Bool.not_false, if_pos]
      rw [hdrop, List.filter_cons]
      simp only [hens, Bool.not_false, if_pos]
      rw [htakeEq, hdropEq, List.map_append, List.map_cons, List.map_take,
          List.map_drop, hdropEq', coerce_raw]

theorem ULsetitem_aligned {u : UL} {i : Int} {x : Inb} {u' : UL}
    (hal : Aligned u) (hi : 0 ≤ i)
    (hx : spaceySV (coerce x false).2 = false)
    (h : ULsetitem u i x = (none, u')) : Aligned u' := by
  obtain ⟨lg, sp⟩ := u
  have hal' : AlignedViews sp lg := hal
  rw [show i = ((i.toNat : Nat) : Int) by omega] at h
  unfold ULsetitem at h
  rw [show (UL.mk lg sp).spaced = sp from rfl,
      show (UL.mk lg sp).logical = lg from rfl, spacesBeforeAux_spec] at h
  cases hp : nthNonSpaceyPos sp i.toNat with
  | none => rw [hp] at h; simp at h
  | some p =>
      rw [hp, Option.map_some'] at h
      obtain ⟨e, hens, hdrop, hplen, hilt, htakeEq, hdropEq, hdropEq'⟩ :=
        AlignedViews_split hal' hp
      have hge := nthNonSpaceyPos_ge sp i.toNat p hp
      have h₁ : (match pySet sp (((i.toNat : Nat) : Int) +
            ((0 + (p - i.toNat) : Nat) : Int)) (coerce x false).2 with
          | none => (some PyErr.index, UL.mk lg sp)
          | some sp' =>
              match pySet lg ((i.toNat : Nat) : Int) (coerce x false).1 with
              | none => (some PyErr.index, UL.mk lg sp')
              | some lg' => ((none : Option PyErr), UL.mk lg' sp')) =
          (none, u') := h
      rw [show (((i.toNat : Nat) : Int) + ((0 + (p - i.toNat) : Nat) : Int)) =
            ((p : Nat) : Int) by omega,
          pySet_nat sp p _ (by omega)] at h₁
      have h₂ : (match pySet lg ((i.toNat : Nat) : Int) (coerce x false).1 with
          | none => (some PyErr.index,
              UL.mk lg (sp.take p ++ (coerce x false).2 :: sp.drop (p + 1)))
          | some lg' =>
              ((none : Option PyErr),
               UL.mk lg' (sp.take p ++ (coerce x false).2 :: sp.drop (p + 1)))) =
          (none, u') := h₁
      rw [pySet_nat lg i.toNat _ hilt] at h₂
      have h₃ : ((none : Option PyErr),
          UL.mk (lg.take i.toNat ++ (coerce x false).1 :: lg.drop (i.toNat + 1))
            (sp.take p ++ (coerce x false).2 :: sp.drop (p + 1))) = (none, u') := h₂
      rw [Prod.mk.injEq] at h₃
      obtain ⟨-, hu⟩ := h₃
      subst hu
      show AlignedViews (sp.take p ++ (coerce x false).2 :: sp.drop (p + 1))
        (lg.take i.toNat ++ (coerce x false).1 :: lg.drop (i.toNat + 1))
      unfold AlignedViews
      rw [List.filter_append, List.filter_cons]
      simp only [hx, Bool.not_false, if_pos]
      rw [htakeEq, hdropEq, List.map_append, List.map_cons, List.map_take,
          List.map_drop, coerce_raw]

theorem ULdelitem_aligned {u : UL} {i : Int} {u' : UL}
    (hal : Aligned u) (hi : 0 ≤ i)
    (h : ULdelitem u i = (none, u')) : Aligned u' := by
  obtain ⟨lg, sp⟩ := u
  have hal' : AlignedViews sp lg := hal
  rw [show i = ((i.toNat : Nat) : Int) by omega] at h
  unfold ULdelitem at h
  rw [show (UL.mk lg sp).spaced = sp from rfl,
      show (UL.mk lg sp).logical = lg from rfl, spacesBeforeAux_spec] at h
  cases hp : nthNonSpaceyPos sp i.toNat with
  | none => rw [hp] at h; simp at h
  | some p =>
      rw [hp, Option.map_some'] at h
      obtain ⟨e, hens, hdrop, hplen, hilt, htakeEq, hdropEq, hdropEq'⟩ :=
        AlignedViews_split hal' hp
      have hge := nthNonSpaceyPos_ge sp i.toNat p hp
      have h₁ : (match pyDel sp (((i.toNat : Nat) : Int) +
            ((0 + (p - i.toNat) : Nat) : Int)) with
          | none => (some PyErr.index, UL.mk lg sp)
          | some sp' =>
              match pyDel lg ((i.toNat : Nat) : Int) with
              | none => (some PyErr.index, UL.mk lg sp')
              | some lg' => ((none : Option PyErr), UL.mk lg' sp')) =
          (none, u') := h
      rw [show (((i.toNat : Nat) : Int) + ((0 + (p - i.toNat) : Nat) : Int)) =
            ((p : Nat) : Int) by omega,
          pyDel_nat sp p (by omega)] at h₁
      have h₂ : (match pyDel lg ((i.toNat : Nat) : Int) with
          | none => (some PyErr.index,
              UL.mk lg (sp.take p ++ sp.drop (p + 1)))
          | some lg' =>
              ((none : Option PyErr), UL.mk lg' (sp.take p ++ sp.drop (p + 1)))) =
          (none, u') := h₁
      rw [pyDel_nat lg i.toNat hilt] at h₂
      have h₃ : ((none : Option PyErr),
          UL.mk (lg.take i.toNat ++ lg.drop (i.toNat + 1))
            (sp.take p ++ sp.drop (p + 1))) = (none, u') := h₂
      rw [Prod.mk.injEq] at h₃
      obtain ⟨-, hu⟩ := h₃
      subst hu
      show AlignedViews (sp.take p ++ sp.drop (p + 1))
        (lg.take i.toNat ++ lg.drop (i.toNat + 1))
      unfold AlignedViews
      rw [List.filter_append, htakeEq, hdropEq, List.map_append, List.map_take,
          List.map_drop]

theorem spacesBeforeAux_past_end {u : UL} {i : Int} (hal : Aligned u)
    (hi : (u.logical.length : Int) ≤ i) :
    spacesBeforeAux u.spaced i 0 = none := by
  have hale : u.spaced.filter (fun e => !spaceySV e) = u.logical.map rawOfL := hal
  have hlen := congrArg List.length hale
  rw [List.length_map] at hlen
  rw [show i = ((i.toNat : Nat) : Int) by omega, spacesBeforeAux_spec,
      nthNonSpaceyPos_none _ _ (by omega)]
  rfl

/-! ## Claim C2: logical/formatted alignment -/

/-- C2 (amended): on a level whose two views are *aligned* — the
non-whitespace entries of the formatted view are exactly the raw values
of the logical entries — the logical element count plus the count of
whitespace-only leaves of the formatted view equals the formatted
element count, and alignment (hence the count identity) is preserved by
every successful `append`, `insert`, `__setitem__` and `__delitem__`
with a non-negative logical index and a non-whitespace inbound value.
The identity is *not* an invariant of every tree `loads` builds: an
all-whitespace sub-block body is elided from the logical view as a
whole sublist, not as a whitespace leaf (see the counterexample), so
the two views can drift apart already at construction time. -/
theorem claim_C2_alignment (u : UL) (hal : Aligned u) :
    (u.logical.length + wsLeafCount u.spaced = u.spaced.length) ∧
    (∀ (x : Inb) (so : Bool), spaceySV (coerce x so).2 = false →
      Aligned (ULappend u x so)) ∧
    (∀ (i : Int) (x : Inb) (so : Bool) (u' : UL), 0 ≤ i →
      spaceySV (coerce x so).2 = false →
      ULinsert u i x so = (none, u') → Aligned u') ∧
    (∀ (i : Int) (x : Inb) (u' : UL), 0 ≤ i →
      spaceySV (coerce x false).2 = false →
      ULsetitem u i x = (none, u') → Aligned u') ∧
    (∀ (i : Int) (u' : UL), 0 ≤ i → ULdelitem u i = (none, u') → Aligned u') := by
  refine ⟨?_, ?_, ?_, ?_, ?_⟩
  · have hale : u.spaced.filter (fun e => !spaceySV e) = u.logical.map rawOfL := hal
    have h1 := congrArg List.length hale
    rw [List.length_map] at h1
    have h2 := length_filter_spacey u.spaced
    unfold wsLeafCount
    omega
  · intro x so hx
    exact ULappend_aligned x so hal hx
  · intro i x so u' hi hx h
    exact ULinsert_aligned hal hi hx h
  · intro i x u' hi hx h
    exact ULsetitem_aligned hal hi hx h
  · intro i u' hi h
    exact ULdelitem_aligned hal hi h

/-- Witness for C2: the count identity on a concrete aligned level. -/
theorem claim_C2_alignment_witness :
    (UL.mk [.str ['a']] [.str ['\n'], .str ['a']]).logical.length +
      wsLeafCount (UL.mk [.str ['a']] [.str ['\n'], .str ['a']]).spaced =
      (UL.mk [.str ['a']] [.str ['\n'], .str ['a']]).spaced.length :=
  (claim_C2_alignment _ (by decide)).1

/-- Counterexample to C2 as stated: in the tree loaded from
`"server {\n}\n"`, the block's body (whose only entry is the whitespace
string `"\n"`) is elided from the logical view as a *sublist*, so at the
block level the logical count plus the whitespace-leaf count of the
formatted view (its two entries are both lists, hence not whitespace
leaves) does not equal the formatted count: `1 + 0 ≠ 2`. -/
theorem claim_C2_counterexample :
    ∃ u v, loads "server \x7b\n\x7d\n".data = some u ∧
      ULsubAt u 0 = some v ∧
      v.logical.length + wsLeafCount v.spaced ≠ v.spaced.length :=
  ⟨_, _, rfl, rfl, by decide⟩

/-! ## Claim C7: out-of-range mutation -/

/-- C7 (amended): on an *aligned* `UnspacedList` a `__setitem__` or
`__delitem__` whose logical index is at or past the logical length
raises `IndexError` from the `_spaces_before` walk and leaves both views
unchanged.  Without alignment (or for negative indices) the guarantee
fails: the formatted view can be mutated before the logical write
raises, as the counterexample shows. -/
theorem claim_C7_out_of_range (u : UL) (i : Int) (x : Inb)
    (hal : Aligned u) (hi : (u.logical.length : Int) ≤ i) :
    ULsetitem u i x = (some .index, u) ∧ ULdelitem u i = (some .index, u) := by
  constructor
  · unfold ULsetitem
    rw [spacesBeforeAux_past_end hal hi]
  · unfold ULdelitem
    rw [spacesBeforeAux_past_end hal hi]

/-- Witness for C7: index 3 on an aligned one-element list. -/
theorem claim_C7_out_of_range_witness :
    ULsetitem (UL.mk [.str ['a']] [.str [' '], .str ['a']]) 3 (.sv (.obj 0)) =
      (some .index, UL.mk [.str ['a']] [.str [' '], .str ['a']]) ∧
    ULdelitem (UL.mk [.str ['a']] [.str [' '], .str ['a']]) 3 =
      (some .index, UL.mk [.str ['a']] [.str [' '], .str ['a']]) :=
  claim_C7_out_of_range _ 3 _ (by decide) (by decide)

/-- Counterexample to C7 as stated: `UnspacedList([" "])` has an empty
logical view, so `__setitem__` with index `-1` is out of range — it
raises `IndexError` — yet the formatted view has already been written:
`self.spaced[-1 + 0]` succeeds on the one-element `spaced` list before
`list.__setitem__` fails on the empty logical list. -/
theorem claim_C7_counterexample :
    (ULsetitem (UL.mk [] [.str [' ']]) (-1) (.sv (.str ['x']))).1 =
      some .index ∧
    (ULsetitem (UL.mk [] [.str [' ']]) (-1) (.sv (.str ['x']))).2.spaced =
      [.str ['x']] ∧
    [SV.str ['x']] ≠ [SV.str [' ']] :=
  ⟨rfl, rfl, by decide⟩

/-! ## Claim C10: insert at the logical length -/

/-- C10 (amended): on an *aligned* `UnspacedList`, `insert` at a logical
index at or past the logical length raises `IndexError` (the
`_spaces_before` scan runs off the end of the formatted list) and
changes nothing — appending is only possible via `append`/`extend`.  On
a list whose views have drifted (extra non-whitespace formatted entries,
e.g. after an elided all-whitespace sub-block), `insert` at the logical
length can succeed instead, as the counterexample shows. -/
theorem claim_C10_insert_past_end (u : UL) (i : Int) (x : Inb) (so : Bool)
    (hal : Aligned u) (hi : (u.logical.length : Int) ≤ i) :
    ULinsert u i x so = (some .index, u) := by
  unfold ULinsert
  rw [spacesBeforeAux_past_end hal hi]

/-- Witness for C10: insert at index 1 = length on an aligned list. -/
theorem claim_C10_insert_past_end_witness :
    ULinsert (UL.mk [.str ['a']] [.str ['a']]) 1 (.sv (.str ['b'])) false =
      (some .index, UL.mk [.str ['a']] [.str ['a']]) :=
  claim_C10_insert_past_end _ 1 _ false (by decide) (by decide)

/-- Counterexample to C10 as stated: the block sublist loaded from
`"server {\n}\n"` has logical length 1 but two non-whitespace formatted
entries (the header and the elided all-whitespace body), so `insert` at
logical index 1 = `len(l)` does *not* raise: it succeeds and inserts. -/
theorem claim_C10_counterexample :
    ∃ u v, loads "server \x7b\n\x7d\n".data = some u ∧
      ULsubAt u 0 = some v ∧
      v.logical.length = 1 ∧
      (ULinsert v 1 (.sv (.str ['x'])) false).1 = none ∧
      (ULinsert v 1 (.sv (.str ['x'])) false).2.logical.length = 2 :=
  ⟨_, _, rfl, rfl, rfl, rfl, rfl⟩

/-! ## Claim C4: no type check on inbound elements -/

/-- C4 (amended): `_coerce` performs no type check, so a mutation is
never rejected with a type error: `insert`, `__setitem__` and
`__delitem__` can only raise `IndexError`, and `append` silently accepts
any value — including a non-string non-list object, which is stored
unchanged in both views.  Only `extend` raises `TypeError`, and only
because iterating a non-iterable argument fails; a *string* argument to
`extend` is not rejected either: it is spread into its characters. -/
theorem claim_C4_no_type_check :
    (∀ (u : UL) (i : Int) (x : Inb) (so : Bool),
      (ULinsert u i x so).1 ≠ some .type) ∧
    (∀ (u : UL) (x : Inb) (so : Bool),
      (ULappend u x so).logical = u.logical ++ [(coerce x so).1]) ∧
    (∀ (u : UL) (i : Int) (x : Inb), (ULsetitem u i x).1 ≠ some .type) ∧
    (∀ (u : UL) (i : Int), (ULdelitem u i).1 ≠ some .type) ∧
    (∀ (u : UL) (n : Int) (so : Bool),
      ULextend u (.sv (.obj n)) so = (some .type, u)) ∧
    (∀ (u : UL) (cs : List Char) (so : Bool),
      ULextend u (.sv (.str cs)) so =
        (none, UL.mk (u.logical ++ cs.map (fun ch => .str [ch]))
                     (u.spaced ++ cs.map (fun ch => .str [ch])))) := by
  refine ⟨?_, ?_, ?_, ?_, ?_, ?_⟩
  · intro u i x so hc
    unfold ULinsert at hc
    cases hsb : spacesBeforeAux u.spaced i 0 <;> rw [hsb] at hc <;> simp at hc
  · intro u x so
    rfl
  · intro u i x hc
    unfold ULsetitem at hc
    cases hsb : spacesBeforeAux u.spaced i 0 <;> rw [hsb] at hc
    · simp at hc
    · rename_i k
      have hc₂ : (match pySet u.spaced (i + (k : Int)) (coerce x false).2 with
          | none => (some PyErr.index, u)
          | some sp' =>
              match pySet u.logical i (coerce x false).1 with
              | none => (some PyErr.index, UL.mk u.logical sp')
              | some lg' => ((none : Option PyErr), UL.mk lg' sp')).1 =
          some PyErr.type := hc
      cases hs1 : pySet u.spaced (i + (k : Int)) (coerce x false).2 <;>
        rw [hs1] at hc₂
      · simp at hc₂
      · rename_i sp'
        have hc₃ : (match pySet u.logical i (coerce x false).1 with
            | none => (some PyErr.index, UL.mk u.logical sp')
            | some lg' => ((none : Option PyErr), UL.mk lg' sp')).1 =
            some PyErr.type := hc₂
        cases hs2 : pySet u.logical i (coerce x false).1 <;>
          rw [hs2] at hc₃ <;> simp at hc₃
  · intro u i hc
    unfold ULdelitem at hc
    cases hsb : spacesBeforeAux u.spaced i 0 <;> rw [hsb] at hc
    · simp at hc
    · rename_i k
      have hc₂ : (match pyDel u.spaced (i + (k : Int)) with
          | none => (some PyErr.index, u)
          | some sp' =>
              match pyDel u.logical i with
              | none => (some PyErr.index, UL.mk u.logical sp')
              | some lg' => ((none : Option PyErr), UL.mk lg' sp')).1 =
          some PyErr.type := hc
      cases hs1 : pyDel u.spaced (i + (k : Int)) <;> rw [hs1] at hc₂
      · simp at hc₂
      · rename_i sp'
        have hc₃ : (match pyDel u.logical i with
            | none => (some PyErr.index, UL.mk u.logical sp')
            | some lg' => ((none : Option PyErr), UL.mk lg' sp')).1 =
            some PyErr.type := hc₂
        cases hs2 : pyDel u.logical i <;> rw [hs2] at hc₃ <;> simp at hc₃
  · intro u n so
    rfl
  · intro u cs so
    rfl

/-- Witness for C4: `extend` with `None`-like object raises `TypeError`. -/
theorem claim_C4_no_type_check_witness :
    ULextend (UL.mk [] []) (.sv (.obj 3)) false = (some .type, UL.mk [] []) :=
  claim_C4_no_type_check.2.2.2.2.1 (UL.mk [] []) 3 false

/-- Counterexample to C4 as stated: appending a non-string non-list
object does not fail with a type error; it is silently accepted into
both views. -/
theorem claim_C4_counterexample :
    ULappend (UL.mk [] []) (.sv (.obj 7)) false = UL.mk [.obj 7] [.obj 7] := rfl

/-! ## Claim C5: appending a directive to a block body -/

/-- C5 (amended): appending `["root", "/var/www"]` with
`spaceout=True` to the body of the block loaded from
`"server {\n  listen 80;\n}\n"` succeeds, and serialization produces
`"server {\n  listen 80;\n\nroot /var/www;}\n"`: the output contains a
well-formed `root /var/www;` line inside the block, but the parser's
trailing-whitespace leaf (the `"\n"` the body keeps before `}`) now
precedes the new directive, so the pre-existing closing line `}` is
merged with the new directive's line rather than preserved byte for
byte. -/
theorem claim_C5_append_scenario :
    ∃ u blk body,
      loads "server \x7b\n  listen 80;\n\x7d\n".data = some u ∧
      ULsubAt u 0 = some blk ∧
      ULsubAt blk 1 = some body ∧
      dumps (withSub u 0 0 (withSub blk 1 1
        (ULappend body (.sv (.lst [.str "root".data, .str "/var/www".data])) true))) =
        some "server \x7b\n  listen 80;\n\nroot /var/www;\x7d\n".data ∧
      "\nroot /var/www;".data <:+: "server \x7b\n  listen 80;\n\nroot /var/www;\x7d\n".data :=
  ⟨_, _, _, rfl, rfl, rfl, rfl, by decide⟩

/-- Counterexample to C5 as stated: the original text has its closing
brace on a line of its own (the byte pair `"\n}"` occurs), but after the
append-and-serialize round the pair is gone — the `}` line is no longer
byte-identical to a pre-existing line. -/
theorem claim_C5_counterexample :
    ∃ u blk body,
      loads "server \x7b\n  listen 80;\n\x7d\n".data = some u ∧
      ULsubAt u 0 = some blk ∧
      ULsubAt blk 1 = some body ∧
      dumps (withSub u 0 0 (withSub blk 1 1
        (ULappend body (.sv (.lst [.str "root".data, .str "/var/www".data])) true))) =
        some "server \x7b\n  listen 80;\n\nroot /var/www;\x7d\n".data ∧
      ("\n\x7d".data <:+: "server \x7b\n  listen 80;\n\x7d\n".data) ∧
      ¬ ("\n\x7d".data <:+: "server \x7b\n  listen 80;\n\nroot /var/www;\x7d\n".data) :=
  ⟨_, _, _, rfl, rfl, rfl, rfl, by decide, by decide⟩

/-! ## Claim C6: extend / `+` do not clone their operand -/

theorem hget_set_ne {α : Type} (l : List α) (i j : Nat) (a : α) (h : i ≠ j) :
    (l.set i a).get? j = l.get? j := by
  simp [List.get?_eq_getElem?, List.getElem?_set_ne h]

/-- C6 (amended): `_coerce` returns an `UnspacedList` operand itself —
no clone — so `extend` (and `__add__`, which is deepcopy-then-extend)
appends the operand's *own* entries: in the pure model the result's new
logical and formatted tails are the operand's entries verbatim, and in
the heap model the references to the operand's sub-objects (its nested
sublists and their `spaced` lists) are copied into the result, so the
result shares mutable sub-structure with the operand (see the
counterexample, where mutating the result of `a + b` mutates `b`). -/
theorem claim_C6_extend_no_clone :
    (∀ (u v : UL) (so : Bool),
      coerce (.ul v) so = (.sub v, .lst v.spaced) ∧
      ULextend u (.ul v) so =
        (none, UL.mk (u.logical ++ v.logical) (u.spaced ++ v.spaced))) ∧
    (∀ (fuel : Nat) (h : List HObj) (ua ub sa sab : Nat)
        (lg vs lgb vsb : List PyVal) (so : Bool),
      h.get? ua = some (.ulist lg sa) →
      h.get? ub = some (.ulist lgb sab) →
      h.get? sa = some (.plain vs) →
      h.get? sab = some (.plain vsb) →
      heapExtend (fuel + 1) h ua (.ref ub) so =
        some (none, (h.set sa (.plain (vs ++ vsb))).set ua
          (.ulist (lg ++ lgb) sa))) := by
  constructor
  · intro u v so
    exact ⟨rfl, rfl⟩
  · intro fuel h ua ub sa sab lg vs lgb vsb so hua hub hsa hsab
    have hubsa : ub ≠ sa := by
      intro he
      rw [he, hsa] at hub
      simp at hub
    have hco : heapCoerce (fuel + 1) h (.ref ub) so =
        some (.ref ub, .ref sab, h) := by
      unfold heapCoerce
      simp only []
      rw [hub]
    have hit : heapIter h (.ref sab) = some vsb := by
      unfold heapIter
      simp only []
      rw [hsab]
    have hit2 : heapIter (h.set sa (.plain (vs ++ vsb))) (.ref ub) = some lgb := by
      unfold heapIter
      simp only []
      rw [hget_set_ne h sa ub _ (fun he => hubsa he.symm), hub]
    unfold heapExtend
    rw [hua]
    simp only []
    rw [hco]
    simp only []
    rw [hit]
    simp only []
    rw [hsa]
    simp only []
    rw [hit2]

/-- Witness for C6's heap statement at a concrete four-object heap. -/
theorem claim_C6_extend_no_clone_witness :
    heapExtend 1 [HObj.ulist [] 1, .plain [], .ulist [.str ['k']] 3,
        .plain [.str ['k']]] 0 (.ref 2) false =
      some (none,
        (([HObj.ulist [] 1, .plain [], .ulist [.str ['k']] 3,
           .plain [.str ['k']]].set 1 (.plain ([] ++ [.str ['k']]))).set 0
          (.ulist ([] ++ [.str ['k']]) 1))) :=
  claim_C6_extend_no_clone.2 0 _ 0 2 1 3 [] [] [.str ['k']] [.str ['k']] false
    rfl rfl rfl rfl

/-- Counterexample to C6 as stated: build `b = UnspacedList([["key", " ",
"val"]])` (heap address 5, its nested sublist at address 4), an empty
`a` (address 7), and `c = a + b` (address 9).  `c`'s first logical entry
is the *same object* (address 4) as `b`'s; setting its element 0 to
`"K"` through `c` changes the object `b` still holds: `b` has been
mutated through `c`. -/
theorem claim_C6_counterexample :
    ∃ h₁ h₂ h₃ h₄,
      heapInitUL 20 [HObj.plain [.str "key".data, .str " ".data, .str "val".data]]
          [.ref 0] false = some (5, h₁) ∧
      heapInitUL 20 h₁ [] false = some (7, h₂) ∧
      heapAdd 20 h₂ 7 5 = some (9, h₃) ∧
      heapGetitem h₃ 9 0 = some (.ref 4) ∧
      h₃.get? 4 = some (.ulist [.str "key".data, .str "val".data] 3) ∧
      heapSetitem 20 h₃ 4 0 (.str "K".data) = some (none, h₄) ∧
      heapGetitem h₄ 5 0 = some (.ref 4) ∧
      h₄.get? 4 = some (.ulist [.str "K".data, .str "val".data] 3) :=
  ⟨_, _, _, _, rfl, rfl, rfl, rfl, rfl, rfl, rfl, rfl⟩

end Nginx
